import Mathlib

/-!
Verification of the sqliac dependency-resolution and orchestration core.

This file gives a shallow embedding of the sqliac pipeline (`utils.py`,
`main.py`, `errors.py`) and proves properties of it:

* `dependenciesSort` embeds `Utils.dependencies_sort` (Kahn's algorithm over an
  insertion-ordered dictionary, with the cyclical / dangling-reference error split);
* `renderTemplates` embeds `Utils.render_templates` (missing-variable validation,
  sanitization, normalization); the Jinja2 and sqlglot collaborators are modelled;
* `executeRenderedSqlTemplate` embeds `Utils.execute_rendered_sql_template`;
* `run` embeds `main.run`, with the drift collaborator (whose module is not part
  of the sources) modelled from the spec.

Python dictionaries are embedded as insertion-ordered association lists, machine
integers as `Int`/`Nat`, and fallible code returns `Except`.
-/

namespace Sqliac

/-- Graph nodes are dependency keys, strings such as "role::bi_admin_role". -/
abbrev Node := String

/-- A dependency map: the Python dict `d_map` mapping each node to the list of
nodes it depends on, as an insertion-ordered association list. -/
abbrev DepMap := List (Node × List Node)

/-- Embeds `errors.DependencyError`: `incorrect` is the error raised from the
`except KeyError` branch (`is_cyclical=False`, a dangling reference), `cyclical`
the one raised when not all nodes were processed (`is_cyclical=True`). Both carry
the full graph. -/
inductive DependencyError where
  | incorrect (dMap : DepMap)
  | cyclical (dMap : DepMap)
deriving DecidableEq

/-! ## Association-list operations mirroring Python dict semantics -/

/-- Python `dict[k]` as an option: the value at the first matching key. -/
def alookup : List (Node × Int) → Node → Option Int
  | [], _ => none
  | p :: rest, k => if p.1 = k then some p.2 else alookup rest k

/-- Python `dict.setdefault(k, v)`: keep the dict if `k` is present, else append
`(k, v)` (insertion order). -/
def asetdefault (l : List (Node × Int)) (k : Node) (v : Int) : List (Node × Int) :=
  if l.any (fun p => p.1 = k) then l else l ++ [(k, v)]

/-- Python `dict[k] = f(old)` on a present key: replace the value at the first
matching key, preserving order; append if the key is absent. -/
def aset (l : List (Node × Int)) (k : Node) (v : Int) : List (Node × Int) :=
  match l with
  | [] => [(k, v)]
  | p :: rest => if p.1 = k then (k, v) :: rest else p :: aset rest k v

/-- Python `in_degree[neighbor] = in_degree.get(neighbor, 0) + 1`. -/
def aincr (l : List (Node × Int)) (k : Node) : List (Node × Int) :=
  match alookup l k with
  | some v => aset l k (v + 1)
  | none => l ++ [(k, 1)]

/-! ## Embedding of `Utils.dependencies_sort` -/

/-- The in-degree dict built by the first loop of `dependencies_sort`:
for each `(node, neighbors)` item of `d_map` in order, `setdefault(node, 0)`
then increment every neighbor. -/
def buildInDegree (dMap : DepMap) : List (Node × Int) :=
  dMap.foldl
    (fun acc p => p.2.foldl (fun a n => aincr a n) (asetdefault acc p.1 0))
    []

/-- One pass of the inner `for neighbor in d_map[current]` loop: decrement each
neighbor's in-degree, appending to the queue any neighbor whose in-degree becomes
exactly 0; `none` models the `KeyError` raised when a neighbor is missing from
`in_degree` (unreachable after `buildInDegree`, kept for faithfulness). -/
def decrNeighbors : List Node → List (Node × Int) → List Node →
    Option (List (Node × Int) × List Node)
  | [], inDeg, enq => some (inDeg, enq)
  | n :: ns, inDeg, enq =>
    match alookup inDeg n with
    | none => none
    | some v =>
      decrNeighbors ns (aset inDeg n (v - 1)) (if v - 1 = 0 then enq ++ [n] else enq)

/-- Outcome of the `while queue` loop: the processed order and count, a
`KeyError` (either `d_map[current]` or an in-degree lookup failing), or fuel
exhaustion (proved unreachable below for the fuel used by `dependenciesSort`). -/
inductive LoopRes where
  | out (topo : List Node) (cnt : Nat)
  | keyErr
  | fuelOut
deriving DecidableEq

/-- Python `d_map[current]`, `none` modelling `KeyError`. -/
def dlookup : DepMap → Node → Option (List Node)
  | [], _ => none
  | p :: rest, k => if p.1 = k then some p.2 else dlookup rest k

/-- The `while queue` loop of `dependencies_sort`: pop from the front, append to
the processed order, decrement the in-degrees of the popped node's dependencies,
enqueueing those that reach 0. Structured with explicit fuel; each iteration
strictly decreases `queue.length + (number of positive in-degree entries)`, so
the fuel chosen by `dependenciesSort` is never exhausted. -/
def kahnLoop (dMap : DepMap) : Nat → List Node → List (Node × Int) →
    List Node → Nat → LoopRes
  | _, [], _, topo, cnt => .out topo cnt
  | 0, _ :: _, _, _, _ => .fuelOut
  | fuel + 1, current :: rest, inDeg, topo, cnt =>
    match dlookup dMap current with
    | none => .keyErr
    | some neighbors =>
      match decrNeighbors neighbors inDeg [] with
      | none => .keyErr
      | some (inDeg2, enq) =>
        kahnLoop dMap fuel (rest ++ enq) inDeg2 (topo ++ [current]) (cnt + 1)

/-- Embeds `Utils.dependencies_sort`. Build the in-degree dict, seed the queue
with the zero-in-degree nodes in dict order, run the loop; a `KeyError` becomes
the non-cyclical `DependencyError`, an incomplete pass the cyclical one, and the
processed order is returned reversed. (`fuelOut` is proved unreachable; it is
mapped to the non-cyclical error arbitrarily.) -/
def dependenciesSort (dMap : DepMap) : Except DependencyError (List Node) :=
  let inDeg := buildInDegree dMap
  let queue := (inDeg.filter (fun p => p.2 = 0)).map Prod.fst
  match kahnLoop dMap inDeg.length queue inDeg [] 0 with
  | .keyErr => .error (.incorrect dMap)
  | .fuelOut => .error (.incorrect dMap)
  | .out topo cnt =>
    if cnt ≠ dMap.length then .error (.cyclical dMap)
    else .ok topo.reverse

/-! ## Basic facts about the dictionary operations -/

/-- The key list of the dependency map (Python `d_map.keys()`). -/
def dkeys (dMap : DepMap) : List Node := dMap.map Prod.fst

/-- All dependency targets of the map, with multiplicity (Python: the
concatenation of all `d_map` values). -/
def targetsList (dMap : DepMap) : List Node := dMap.flatMap Prod.snd

/-- `x` depends on `y` in the graph: `y` occurs in the adjacency list that
`d_map[x]` returns. -/
def Edge (dMap : DepMap) (x y : Node) : Prop :=
  ∃ ns, dlookup dMap x = some ns ∧ y ∈ ns

/-- Total number of dependent edges into `y` (with multiplicity): the in-degree
the setup loop computes. -/
def initDeg (dMap : DepMap) (y : Node) : Nat :=
  (dMap.map (fun p => p.2.count y)).sum

/-- Number of dependent edges into `y` contributed by entries whose key is not
in `popped`: the abstract value of `in_degree[y]` after popping `popped`. -/
def resDeg (dMap : DepMap) (popped : List Node) (y : Node) : Nat :=
  ((dMap.filter (fun p => decide (p.1 ∉ popped))).map (fun p => p.2.count y)).sum

/-- The number of positive in-degree entries among `dom`, looked up in `inDeg`. -/
def posCountOn (dom : List Node) (inDeg : List (Node × Int)) : Nat :=
  (dom.filter (fun y =>
    match alookup inDeg y with
    | some v => decide (0 < v)
    | none => false)).length

/-- Invariant of the `while queue` loop of `dependencies_sort`: `topo` is the
list of popped nodes in pop order, `queue` the pending queue and `inDeg` the
current in-degree dict. -/
structure LoopInv (dMap : DepMap) (queue : List Node) (inDeg : List (Node × Int))
    (topo : List Node) (cnt : Nat) : Prop where
  hcnt : cnt = topo.length
  topoNd : topo.Nodup
  queueNd : queue.Nodup
  hdisj : ∀ x ∈ topo, x ∉ queue
  topoKeys : ∀ x ∈ topo, x ∈ dkeys dMap
  domNd : (inDeg.map Prod.fst).Nodup
  hdom : ∀ y, y ∈ inDeg.map Prod.fst ↔ (y ∈ dkeys dMap ∨ y ∈ targetsList dMap)
  hval : ∀ y ∈ inDeg.map Prod.fst, alookup inDeg y = some ((resDeg dMap topo y : Int))
  queueDom : ∀ x ∈ queue, x ∈ inDeg.map Prod.fst
  hzero : ∀ y ∈ inDeg.map Prod.fst, (resDeg dMap topo y = 0 ↔ (y ∈ topo ∨ y ∈ queue))
  hpair : topo.Pairwise (fun a b => ¬ Edge dMap b a)
  hself : ∀ x ∈ topo, ¬ Edge dMap x x

/-- TOML scalar (or `depends_on` table) values appearing in resource
definitions. -/
inductive Value where
  | str (s : String)
  | int (n : Int)
  | boolean (b : Bool)
  | vmap (entries : List (String × List String))
deriving DecidableEq

/-- Modelled from the spec: a Jinja template (spec §4.4) is statically
analyzable into its free variables and rendered by substitution; it is
modelled as a sequence of literal and variable chunks. -/
inductive Chunk where
  | lit (s : String)
  | var (v : String)
deriving DecidableEq

abbrev Template := List Chunk

/-- Modelled from the spec: `meta.find_undeclared_variables` — the set of
variable names the template references (the Python set is modelled as the
duplicate-free list of first occurrences). -/
def findUndeclaredVariables (t : Template) : List String :=
  (t.foldr (fun c acc => match c with | .lit _ => acc | .var v => v :: acc) []).dedup

/-- Modelled from the spec: the text Jinja substitutes for a bound value
(Python `str`-conversion; the `depends_on` table form is never referenced by
the templates the claims concern and is modelled coarsely). -/
def valueToStr : Value → String
  | .str s => s
  | .int n => toString n
  | .boolean b => if b then "True" else "False"
  | .vmap _ => ""

/-- Modelled from the spec: rendering substitutes each variable chunk by its
binding (Jinja renders an unbound variable as the empty string). -/
def renderT (t : Template) (bind : String → String) : String :=
  t.foldr (fun c acc => (match c with | .lit s => s | .var v => bind v) ++ acc) ""

/-- Python `str.replace(";", "")`: remove every semicolon. -/
def removeSemis : List Char → List Char
  | [] => []
  | c :: rest => if c = ';' then removeSemis rest else c :: removeSemis rest

/-- Python `str.replace("--", "")`: remove the left-to-right non-overlapping
occurrences of `--`. -/
def removeDD : List Char → List Char
  | [] => []
  | [c] => [c]
  | c₁ :: c₂ :: rest =>
    if c₁ = '-' ∧ c₂ = '-' then removeDD rest else c₁ :: removeDD (c₂ :: rest)

/-- The sanitization step of `render_templates`:
`str(v).replace(";", "").replace("--", "")` on string values, any other value
unchanged. -/
def sanitizeValue : Value → Value
  | .str s => .str (String.mk (removeDD (removeSemis s.toList)))
  | v => v

def sanitizeDefinition (d : List (String × Value)) : List (String × Value) :=
  d.map (fun p => (p.1, sanitizeValue p.2))

/-- `re.sub(r"\n+", "\n", ...)`: collapse every run of newlines to one. -/
def collapseNL : List Char → List Char
  | [] => []
  | [c] => [c]
  | c₁ :: c₂ :: rest =>
    if c₁ = '\n' ∧ c₂ = '\n' then collapseNL (c₂ :: rest)
    else c₁ :: collapseNL (c₂ :: rest)

/-- The whitespace set of Python's default `str.strip()` (ASCII part). -/
def isPySpace (c : Char) : Bool :=
  c = ' ' ∨ c = '\t' ∨ c = '\n' ∨ c = '\r' ∨ c = Char.ofNat 11 ∨ c = Char.ofNat 12

/-- Drop the longest suffix whose characters satisfy `p`. -/
def dropTrailing (p : Char → Bool) (l : List Char) : List Char :=
  l.foldr (fun c acc => if acc = [] ∧ p c then [] else c :: acc) []

/-- Python `str.strip(chars)`: drop the matching characters from both ends. -/
def stripChars (p : Char → Bool) (l : List Char) : List Char :=
  dropTrailing p (l.dropWhile p)

/-- The cleanup line of `render_templates`:
`re.sub(r"\n+", "\n", sql).strip().strip(";")`. -/
def normalizeSql (s : String) : String :=
  String.mk (stripChars (fun c => c = ';') (stripChars isPySpace (collapseNL s.toList)))

/-- Modelled from the spec: `parse_one(sql, error_level="IGNORE").sql(pretty=True)`,
the tolerant SQL-aware canonicalization. The spec fixes only that it is
best-effort and cosmetic ("parse-if-possible, else pass through raw text",
spec §9); it is modelled as the pass-through identity. -/
def parseOnePretty (sql : String) : String := sql

/-- The exceptions escaping `render_templates`. `missingVars` embeds the
`TemplateFileError` raised when the definition misses template variables,
carrying the resource name, the resources path, and the missing variable
names. `dupKeyword` embeds the uncaught `TypeError: got multiple values for
keyword argument` raised at the `rsc_template.render(iac_action=iac_action,
**sanitized_definition)` call when the definition itself contains an
`iac_action` key; `TypeError` is not in the `except` tuple, so it propagates
unwrapped. -/
inductive RenderError where
  | missingVars (name : Option String) (path : String) (missing : List String)
  | dupKeyword (arg : String)
deriving DecidableEq

/-- Embeds `Utils.render_templates`. `definition = []` models Python's falsy
`definition` (None or the empty dict): that no-definition mode renders with
only `name` bound. Full mode validates the free variables against the
definition keys, sanitizes string values, renders with `iac_action` plus the
sanitized definition bound, cleans the text and canonicalizes it; a definition
that itself carries an `iac_action` key makes the render call raise the
duplicate-keyword `TypeError`. -/
def renderTemplates (resourcesPath : String) (template : Template)
    (definition : List (String × Value)) (iacAction : Option String)
    (name : Option String) : Except RenderError String :=
  if definition = [] then
    .ok (parseOnePretty (renderT template
      (fun v => if v = "name" then (match name with | some s => s | none => "None")
        else "")))
  else
    let requiredVars := findUndeclaredVariables template
    let missingVars := requiredVars.filter
      (fun v => decide (v ∉ definition.map Prod.fst) && decide (v ≠ "iac_action"))
    if missingVars ≠ [] then
      .error (.missingVars name resourcesPath missingVars)
    else
      let sanitized := sanitizeDefinition definition
      if "iac_action" ∈ sanitized.map Prod.fst then
        .error (.dupKeyword "iac_action")
      else
        let sql := renderT template (fun v =>
          if v = "iac_action" then (match iacAction with | some s => s | none => "None")
          else match sanitized.find? (fun p => p.1 = v) with
            | some p => valueToStr p.2
            | none => "")
        .ok (parseOnePretty (normalizeSql sql))

/-- Substring test on character lists (left-to-right scan). -/
def containsSub (pat : List Char) : List Char → Bool
  | [] => pat.isEmpty
  | c :: rest => pat.isPrefixOf (c :: rest) || containsSub pat rest

/-- The normalization as C6's words describe it: collapse newline runs, trim
surrounding whitespace, then strip exactly one trailing ";" — written from the
claim, to be compared against the code's `normalizeSql`. -/
def specNormalizeSqlOneSemi (s : String) : String :=
  let t := stripChars isPySpace (collapseNL s.toList)
  String.mk (match t.getLast? with
    | some c => if c = ';' then t.dropLast else t
    | none => t)

/-- The database connection collaborator (spec §6): the statements executed so
far, in order, and whether `close()` has been called. -/
structure Conn where
  executed : List String
  closed : Bool
deriving DecidableEq

/-- Embeds `errors.SQLExecutionError`, payload reduced to the statement. -/
structure SqlExecErr where
  sql : String
deriving DecidableEq

/-- Embeds `Utils.execute_rendered_sql_template`: only `operation == "Apply"`
runs `conn.exec_driver_sql(sql)` (a driver failure — the `execFails` oracle —
raises `SQLExecutionError`); any other operation value only surfaces the
statement for preview. The rich-console printing and the post-apply
`time.sleep(wait_time)` touch no modelled state; the parameters are kept. -/
def executeRenderedSqlTemplate (execFails : String → Bool) (conn : Conn)
    (sql : String) (operation : String) (_dependsOn : Option Value)
    (_waitTime : Option Int) : Except SqlExecErr Conn :=
  if operation = "Apply" then
    if execFails sql then .error ⟨sql⟩
    else .ok { conn with executed := conn.executed ++ [sql] }
  else .ok conn

/-- Per-resource-type entry of the resources config,
`db_sys_resources[resource_type]` (spec §6). -/
structure ResourceSpec where
  stateQuery : Template
  template : Template
  iacActionMap : List (String × String)

/-- Modelled from the spec: the `DriftResult` returned by the drift
collaborator `drift.resource_state` (the `drift` module is not among the
sources; spec §6 fixes its interface: a classification string plus the
definition to use for final rendering). -/
structure DriftResult where
  iacAction : String
  definition : List (String × Value)

/-- Embeds `main.InputConfig` (`operation` and `run_mode` are the raw
environment strings). -/
structure InputConfig where
  workspace : String
  databaseSystem : String
  definitionsPath : Option String
  resourcesPath : Option String
  operation : String
  runMode : String

/-- `os.environ.get`, first binding wins. -/
def envGet (env : List (String × String)) (k : String) : Option String :=
  match env.find? (fun p => p.1 = k) with
  | some p => some p.2
  | none => none

/-- Embeds `main.to_str`. -/
def toStr (s : Option String) : Option String :=
  match s with
  | none => none
  | some s => if s = "None" ∨ s = "" then none else some s

/-- Embeds `main.parse_env`. -/
def parseEnv (env : List (String × String)) : Except String InputConfig :=
  match envGet env "GITHUB_WORKSPACE", envGet env "INPUT_DATABASE-SYSTEM" with
  | some ws, some db =>
    .ok { workspace := ws, databaseSystem := db,
          definitionsPath :=
            toStr (some ((envGet env "INPUT_DEFINITIONS-PATH").getD "/definitions")),
          resourcesPath :=
            toStr (some ((envGet env "INPUT_RESOURCES-PATH").getD "/sqliac/resources.toml")),
          operation := (envGet env "INPUT_OPERATION").getD "Plan",
          runMode := (envGet env "INPUT_RUN-MODE").getD "default" }
  | _, _ => .error "Missing environment variable"

/-- Errors occurring inside the per-resource `try` block of `main.run`
(wrapped on re-raise). `typeErr` models the `TypeError` Python raises at the
call `utils.execute_rendered_sql_template(connection=conn, ..., dependencies=...)`:
the method's parameters are named `conn` and `depends_on` (as the repository's
own tests call them), so the call fails before the method body runs. -/
inductive ResourceErr where
  | keyErr (key : String)
  | renderErr (e : RenderError)
  | typeErr (fn : String) (kwarg : String)
  | sqlErr (e : SqlExecErr)
deriving DecidableEq

/-- Errors surfacing from `main.run`: `fileErr` (a `FileError`, raised outside
the per-resource `try`), `valueErr` (the tuple-unpack of `i.split("::")`),
`keyErr` (an uncaught dict KeyError outside the `try`), `depErr` (from
`dependencies_sort`) and `wrapped` (the `TemplateFileError` re-raise that
attributes the inner error to the resource and the resources file). -/
inductive RunError where
  | fileErr (path : String) (resourceType : Option String)
  | valueErr (node : String)
  | keyErr (key : String)
  | depErr (e : DependencyError)
  | wrapped (name : String) (file : Option String) (inner : ResourceErr)
deriving DecidableEq

instance {ε α : Type} [DecidableEq ε] [DecidableEq α] : DecidableEq (Except ε α) :=
  fun a b =>
    match a, b with
    | .error e₁, .error e₂ =>
      if h : e₁ = e₂ then isTrue (by rw [h]) else
        isFalse (fun hc => by injection hc with h2; exact h h2)
    | .ok u₁, .ok u₂ =>
      if h : u₁ = u₂ then isTrue (by rw [h]) else
        isFalse (fun hc => by injection hc with h2; exact h h2)
    | .error _, .ok _ => isFalse (fun hc => by cases hc)
    | .ok _, .error _ => isFalse (fun hc => by cases hc)

/-- Python `str.lower()` (ASCII, which covers the mode strings compared). -/
def pyLower (s : String) : String := String.mk (s.toList.map Char.toLower)

/-- Python `i.split("::")` on the character level: split at every
left-to-right occurrence of `::`. -/
def splitOnColons : List Char → List (List Char)
  | [] => [[]]
  | ':' :: ':' :: rest => [] :: splitOnColons rest
  | c :: rest =>
    match splitOnColons rest with
    | part :: parts => (c :: part) :: parts
    | [] => [[c]]

/-- `resource_type, resource_name = i.split("::")`; `none` models the
`ValueError` when the split does not yield exactly two parts. -/
def splitNode (i : String) : Option (String × String) :=
  match splitOnColons i.toList with
  | [a, b] => some (String.mk a, String.mk b)
  | _ => none

/-- Renders and errors contributed by processing one definition record. -/
structure StepOut where
  stateRenders : List String
  actionRenders : List String
  err : Option ResourceErr

/-- Processing of one record `rsc` of `definition[resource_type]` inside the
`try` of `main.run`: skip unless `rsc["name"] == resource_name`; then render
the state query, consult the drift collaborator and dispatch on the run mode.
Every dispatch branch that reaches the execute call raises the keyword
`TypeError` (see `ResourceErr.typeErr`). -/
def processRsc (cfg : InputConfig) (spec : ResourceSpec)
    (driftFn : List (String × Value) → String → String → DriftResult)
    (resourceName : String) (rsc : List (String × Value)) : StepOut :=
  match rsc.find? (fun p => p.1 = "name") with
  | none => ⟨[], [], some (.keyErr "name")⟩
  | some p =>
    if p.2 = Value.str resourceName then
      match renderTemplates ((cfg.resourcesPath).getD "None") spec.stateQuery rsc
          none (some resourceName) with
      | .error e => ⟨[], [], some (.renderErr e)⟩
      | .ok stateSql =>
        let drift := driftFn rsc stateSql resourceName
        if pyLower cfg.runMode = "create-or-update" then
          if drift.iacAction = "create" then
            match spec.iacActionMap.find? (fun q => q.1 = "create") with
            | none => ⟨[stateSql], [], some (.keyErr "create")⟩
            | some kw =>
              match renderTemplates ((cfg.resourcesPath).getD "None") spec.template
                  drift.definition (some kw.2) (some resourceName) with
              | .error e => ⟨[stateSql], [], some (.renderErr e)⟩
              | .ok sql =>
                ⟨[stateSql], [sql],
                  some (.typeErr "execute_rendered_sql_template" "connection")⟩
          else if drift.iacAction = "no action" then ⟨[stateSql], [], none⟩
          else if drift.iacAction = "alter" then
            match spec.iacActionMap.find? (fun q => q.1 = "alter") with
            | none => ⟨[stateSql], [], some (.keyErr "alter")⟩
            | some kw =>
              match renderTemplates ((cfg.resourcesPath).getD "None") spec.template
                  drift.definition (some kw.2) (some resourceName) with
              | .error e => ⟨[stateSql], [], some (.renderErr e)⟩
              | .ok sql =>
                ⟨[stateSql], [sql],
                  some (.typeErr "execute_rendered_sql_template" "connection")⟩
          else ⟨[stateSql], [], none⟩
        else if pyLower cfg.runMode = "destroy" then
          match spec.iacActionMap.find? (fun q => q.1 = "drop") with
          | none => ⟨[stateSql], [], some (.keyErr "drop")⟩
          | some kw =>
            match renderTemplates ((cfg.resourcesPath).getD "None") spec.template
                drift.definition (some kw.2) (some resourceName) with
            | .error e => ⟨[stateSql], [], some (.renderErr e)⟩
            | .ok sql =>
              ⟨[stateSql], [sql],
                some (.typeErr "execute_rendered_sql_template" "connection")⟩
        else ⟨[stateSql], [], none⟩
    else ⟨[], [], none⟩

/-- The inner `for rsc in definition[resource_type]` loop: records processed in
order, stopping at the first error. -/
def processRscs (cfg : InputConfig) (spec : ResourceSpec)
    (driftFn : List (String × Value) → String → String → DriftResult)
    (resourceName : String) : List (List (String × Value)) → StepOut
  | [] => ⟨[], [], none⟩
  | rsc :: rest =>
    let s := processRsc cfg spec driftFn resourceName rsc
    match s.err with
    | some e => ⟨s.stateRenders, s.actionRenders, some e⟩
    | none =>
      let t := processRscs cfg spec driftFn resourceName rest
      ⟨s.stateRenders ++ t.stateRenders, s.actionRenders ++ t.actionRenders, t.err⟩

/-- One iteration of the `for i in sorted_map` loop: split the node, open the
definition file (a missing file raises `FileError` outside the `try`), then
run the guarded block; an inner error is wrapped as a `TemplateFileError`
attributed to the resource name and `config.resources_path`. -/
def processResource (cfg : InputConfig)
    (defFile : String → Option (List (String × List (List (String × Value)))))
    (dbRes : String → Option ResourceSpec)
    (driftFn : List (String × Value) → String → String → DriftResult)
    (i : String) : List String × List String × Option RunError :=
  match splitNode i with
  | none => ([], [], some (.valueErr i))
  | some (rtype, rname) =>
    match defFile rtype with
    | none =>
      ([], [], some (.fileErr
        (cfg.workspace ++ (cfg.definitionsPath).getD "None" ++ "/" ++ rtype ++ ".toml")
        (some rtype)))
    | some content =>
      match content.find? (fun p => p.1 = rtype) with
      | none => ([], [], some (.wrapped rname cfg.resourcesPath (.keyErr rtype)))
      | some entry =>
        match dbRes rtype with
        | none => ([], [], some (.wrapped rname cfg.resourcesPath (.keyErr rtype)))
        | some spec =>
          let s := processRscs cfg spec driftFn rname entry.2
          match s.err with
          | some e => (s.stateRenders, s.actionRenders,
              some (.wrapped rname cfg.resourcesPath e))
          | none => (s.stateRenders, s.actionRenders, none)

/-- The observable outcome of `main.run`: result, final connection state and
the rendered state queries and action statements, in order. -/
structure RunResult where
  outcome : Except RunError Unit
  conn : Conn
  stateRenders : List String
  actionRenders : List String
deriving DecidableEq

/-- The `for i in sorted_map` loop plus the final `conn.close()`. Only the
wrapped (`TemplateFileError`) re-raise closes the connection on the error
path, matching the `except Exception` handler; `FileError`/`ValueError`
escape with the connection still open. -/
def runLoop (cfg : InputConfig)
    (defFile : String → Option (List (String × List (List (String × Value)))))
    (dbRes : String → Option ResourceSpec)
    (driftFn : List (String × Value) → String → String → DriftResult) :
    List String → Conn → List String → List String → RunResult
  | [], conn, st, act => ⟨.ok (), { conn with closed := true }, st, act⟩
  | i :: rest, conn, st, act =>
    match processResource cfg defFile dbRes driftFn i with
    | (s, a, none) => runLoop cfg defFile dbRes driftFn rest conn (st ++ s) (act ++ a)
    | (s, a, some (.wrapped n p e)) =>
      ⟨.error (.wrapped n p e), { conn with closed := true }, st ++ s, act ++ a⟩
    | (s, a, some e) => ⟨.error e, conn, st ++ s, act ++ a⟩

/-- Embeds `main.run`, with the collaborators as parameters: `dMap` is what
`utils.dependencies_map()` returns, `defFile` the parsed per-type definition
files the loop re-opens, `resourcesConfig` the parsed resources file
(`none` models `FileNotFoundError`; the outer level is
`db_sys_config[database_system]["resources"]`), `driftFn` the drift
collaborator, and the fresh connection that `create_db_sys_connection`
returns. The sort happens before the connection is established. -/
def run (cfg : InputConfig) (dMap : DepMap)
    (defFile : String → Option (List (String × List (List (String × Value)))))
    (resourcesConfig : Option (String → Option (String → Option ResourceSpec)))
    (driftFn : List (String × Value) → String → String → DriftResult) : RunResult :=
  match dependenciesSort dMap with
  | .error e => ⟨.error (.depErr e), ⟨[], false⟩, [], []⟩
  | .ok sortedMap =>
    let conn : Conn := ⟨[], false⟩
    match resourcesConfig with
    | none => ⟨.error (.fileErr ((cfg.resourcesPath).getD "None") none), conn, [], []⟩
    | some cfgF =>
      match cfgF cfg.databaseSystem with
      | none => ⟨.error (.keyErr cfg.databaseSystem), conn, [], []⟩
      | some dbRes => runLoop cfg defFile dbRes driftFn sortedMap conn [] []

/-! ### The orchestrator claims -/

/-- A concrete destroy-mode configuration used by the orchestrator claims. -/
def exampleCfg : InputConfig :=
  ⟨"ws", "snowflake", some "/definitions", some "resources.toml", "Apply", "destroy"⟩

/-- A one-resource definition directory: `role.toml` declaring `r1`. -/
def exampleDefFile (rt : String) :
    Option (List (String × List (List (String × Value)))) :=
  if rt = "role"
  then some [("role", [[("name", Value.str "r1"), ("depends_on", Value.vmap [])]])]
  else none

/-- A resources config with a single `role` resource type. -/
def exampleDbRes (rt : String) : Option ResourceSpec :=
  if rt = "role"
  then some ⟨[Chunk.lit "SHOW ROLES"],
    [Chunk.lit "DROP ROLE ", Chunk.var "name"],
    [("create", "CREATE"), ("alter", "ALTER"), ("drop", "DROP")]⟩
  else none

/-- A drift collaborator that always classifies `no action` and returns the
definition unchanged. -/
def exampleDrift (d : List (String × Value)) (_q _n : String) : DriftResult :=
  ⟨"no action", d⟩

theorem alookup_isSome (l : List (Node × Int)) (k : Node) :
    (alookup l k).isSome ↔ k ∈ l.map Prod.fst := by
  induction l with
  | nil => simp [alookup]
  | cons p rest ih =>
    by_cases hp : p.1 = k
    · simp [alookup, hp]
    · simp only [alookup, if_neg hp, List.map_cons, List.mem_cons]
      rw [ih]
      constructor
      · exact fun h => Or.inr h
      · rintro (h | h)
        · exact absurd h.symm hp
        · exact h

theorem dlookup_isSome (dMap : DepMap) (k : Node) :
    (dlookup dMap k).isSome ↔ k ∈ dkeys dMap := by
  unfold dkeys
  induction dMap with
  | nil => simp [dlookup]
  | cons p rest ih =>
    by_cases hp : p.1 = k
    · simp [dlookup, hp]
    · simp only [dlookup, if_neg hp, List.map_cons, List.mem_cons]
      rw [ih]
      constructor
      · exact fun h => Or.inr h
      · rintro (h | h)
        · exact absurd h.symm hp
        · exact h

theorem dlookup_eq_some_of_mem {dMap : DepMap} (hND : (dkeys dMap).Nodup)
    {k : Node} {ns : List Node} (h : (k, ns) ∈ dMap) : dlookup dMap k = some ns := by
  induction dMap with
  | nil => cases h
  | cons p rest ih =>
    simp only [dkeys, List.map_cons, List.nodup_cons] at hND
    rcases List.mem_cons.mp h with h1 | h1
    · subst h1
      simp [dlookup]
    · have hp : p.1 ≠ k := by
        intro hk
        exact hND.1 (List.mem_map.mpr ⟨(k, ns), h1, hk.symm⟩)
      simp only [dlookup, if_neg hp]
      exact ih hND.2 h1

theorem mem_of_dlookup_eq_some {dMap : DepMap} {k : Node} {ns : List Node}
    (h : dlookup dMap k = some ns) : (k, ns) ∈ dMap := by
  induction dMap with
  | nil => cases h
  | cons p rest ih =>
    obtain ⟨p1, p2⟩ := p
    by_cases hp : p1 = k
    · subst hp
      simp only [dlookup, if_pos rfl] at h
      obtain rfl : p2 = ns := Option.some_injective _ h
      exact List.mem_cons_self _ _
    · simp only [dlookup, if_neg hp] at h
      exact List.mem_cons_of_mem _ (ih h)

theorem edge_of_entry {dMap : DepMap} (hND : (dkeys dMap).Nodup)
    {x y : Node} {ns : List Node} (h : (x, ns) ∈ dMap) (hy : y ∈ ns) :
    Edge dMap x y := ⟨ns, dlookup_eq_some_of_mem hND h, hy⟩

theorem edge_mem_keys {dMap : DepMap} {x y : Node} (h : Edge dMap x y) :
    x ∈ dkeys dMap := by
  obtain ⟨ns, hlk, _⟩ := h
  exact (dlookup_isSome dMap x).mp (by simp [hlk])

theorem edge_mem_targets {dMap : DepMap} {x y : Node} (h : Edge dMap x y) :
    y ∈ targetsList dMap := by
  obtain ⟨ns, hlk, hy⟩ := h
  exact List.mem_flatMap.mpr ⟨(x, ns), mem_of_dlookup_eq_some hlk, hy⟩

/-! ### `aset`, `asetdefault`, `aincr` -/

theorem alookup_append (l l' : List (Node × Int)) (y : Node) :
    alookup (l ++ l') y = ((alookup l y).or (alookup l' y)) := by
  induction l with
  | nil => simp [alookup]
  | cons p rest ih =>
    by_cases hp : p.1 = y
    · simp [alookup, hp]
    · simp [alookup, hp, ih]

theorem alookup_eq_none (l : List (Node × Int)) (y : Node) :
    alookup l y = none ↔ y ∉ l.map Prod.fst := by
  rw [← alookup_isSome l y]
  cases alookup l y <;> simp

theorem alookup_aset (l : List (Node × Int)) (k : Node) (v : Int) (y : Node) :
    alookup (aset l k v) y = if y = k then some v else alookup l y := by
  induction l with
  | nil =>
    by_cases h : y = k
    · simp [aset, alookup, h]
    · simp only [aset, alookup, if_neg h]
      rw [if_neg (fun hh => h hh.symm)]
  | cons p rest ih =>
    by_cases hp : p.1 = k
    · by_cases hy : y = k
      · simp [aset, if_pos hp, alookup, hy]
      · have h1 : alookup ((k, v) :: rest) y = alookup rest y := by
          simp only [alookup]
          rw [if_neg (fun hh => hy hh.symm)]
        have h2 : alookup (p :: rest) y = alookup rest y := by
          simp only [alookup]
          rw [if_neg (show ¬ p.1 = y from fun hh => hy (hh ▸ hp))]
        simp only [aset, if_pos hp]
        rw [h1, if_neg hy, h2]
    · simp only [aset, if_neg hp, alookup]
      by_cases hy : p.1 = y
      · have hyk : ¬ y = k := fun h => hp (hy ▸ h)
        rw [if_pos hy, if_neg hyk, if_pos hy]
      · rw [if_neg hy, if_neg hy, ih]

theorem aset_map_fst {l : List (Node × Int)} {k : Node} (v : Int)
    (h : k ∈ l.map Prod.fst) : (aset l k v).map Prod.fst = l.map Prod.fst := by
  induction l with
  | nil => simp at h
  | cons p rest ih =>
    by_cases hp : p.1 = k
    · simp [aset, hp]
    · simp only [List.map_cons, List.mem_cons] at h
      rcases h with h | h
      · exact absurd h.symm hp
      · simp [aset, hp, ih h]

theorem any_key_iff (l : List (Node × Int)) (k : Node) :
    (l.any (fun p => p.1 = k)) = true ↔ k ∈ l.map Prod.fst := by
  rw [List.any_eq_true]
  constructor
  · rintro ⟨p, hp, hpk⟩
    simp only [decide_eq_true_eq] at hpk
    exact List.mem_map.mpr ⟨p, hp, hpk⟩
  · intro h
    obtain ⟨p, hp, hpk⟩ := List.mem_map.mp h
    exact ⟨p, hp, by simp [hpk]⟩

theorem alookup_asetdefault (l : List (Node × Int)) (k : Node) (v : Int) (y : Node) :
    alookup (asetdefault l k v) y =
      if y = k then some ((alookup l k).getD v) else alookup l y := by
  unfold asetdefault
  by_cases hk : k ∈ l.map Prod.fst
  · rw [if_pos (by rw [any_key_iff]; exact hk)]
    by_cases hy : y = k
    · subst hy
      have := (alookup_isSome l y).mpr hk
      cases h : alookup l y with
      | none => simp [h] at this
      | some w => simp [h]
    · simp [hy]
  · rw [if_neg (fun h => hk ((any_key_iff l k).mp h))]
    have hnone : alookup l k = none := (alookup_eq_none l k).mpr hk
    rw [alookup_append]
    by_cases hy : y = k
    · subst hy
      simp [hnone, alookup]
    · simp only [if_neg hy]
      have : alookup [(k, v)] y = none := by
        simp only [alookup]
        rw [if_neg (fun hh => hy hh.symm)]
      rw [this]
      cases alookup l y <;> simp

theorem asetdefault_map_fst (l : List (Node × Int)) (k : Node) (v : Int) :
    (asetdefault l k v).map Prod.fst =
      if k ∈ l.map Prod.fst then l.map Prod.fst else l.map Prod.fst ++ [k] := by
  unfold asetdefault
  by_cases hk : k ∈ l.map Prod.fst
  · rw [if_pos (by rw [any_key_iff]; exact hk), if_pos hk]
  · rw [if_neg (fun h => hk ((any_key_iff l k).mp h)), if_neg hk]
    simp

theorem alookup_aincr (l : List (Node × Int)) (k : Node) (y : Node) :
    alookup (aincr l k) y =
      if y = k then some ((alookup l k).getD 0 + 1) else alookup l y := by
  unfold aincr
  cases hk : alookup l k with
  | some v =>
    rw [alookup_aset]
    by_cases hy : y = k <;> simp [hy, hk]
  | none =>
    rw [alookup_append]
    by_cases hy : y = k
    · subst hy
      simp [hk, alookup]
    · simp only [if_neg hy]
      have : alookup [(k, 1)] y = none := by
        simp only [alookup]
        rw [if_neg (fun hh => hy hh.symm)]
      rw [this]
      cases alookup l y <;> simp

theorem aincr_map_fst (l : List (Node × Int)) (k : Node) :
    (aincr l k).map Prod.fst =
      if k ∈ l.map Prod.fst then l.map Prod.fst else l.map Prod.fst ++ [k] := by
  unfold aincr
  cases hk : alookup l k with
  | some v =>
    have hmem : k ∈ l.map Prod.fst := (alookup_isSome l k).mp (by simp [hk])
    rw [aset_map_fst _ hmem, if_pos hmem]
  | none =>
    have hnot : k ∉ l.map Prod.fst := (alookup_eq_none l k).mp hk
    rw [if_neg hnot]
    simp

/-! ### Characterizing `buildInDegree` -/

theorem resDeg_nil (dMap : DepMap) (y : Node) : resDeg dMap [] y = initDeg dMap y := by
  unfold resDeg initDeg
  simp

theorem resDeg_cons (p : Node × List Node) (rest : DepMap) (P : List Node) (y : Node) :
    resDeg (p :: rest) P y =
      (if p.1 ∉ P then p.2.count y else 0) + resDeg rest P y := by
  unfold resDeg
  by_cases h : p.1 ∈ P
  · simp [h]
  · simp [h]

theorem foldl_aincr_alookup (ns : List Node) (acc : List (Node × Int)) (y : Node) :
    alookup (ns.foldl (fun a n => aincr a n) acc) y =
      if y ∈ ns ∨ (alookup acc y).isSome
      then some ((alookup acc y).getD 0 + ns.count y) else none := by
  induction ns generalizing acc with
  | nil =>
    cases h : alookup acc y <;> simp [h]
  | cons n t ih =>
    simp only [List.foldl_cons]
    rw [ih (aincr acc n)]
    rw [alookup_aincr]
    by_cases hy : y = n
    · subst hy
      simp only [if_pos rfl, Option.isSome_some, or_true, if_pos, List.mem_cons,
        true_or, Option.getD_some, List.count_cons_self]
      congr 1
      push_cast
      ring
    · rw [if_neg hy]
      have hcount : (n :: t).count y = t.count y := List.count_cons_of_ne hy _
      rw [hcount]
      have hmem : (y ∈ n :: t ∨ (alookup acc y).isSome) ↔
          (y ∈ t ∨ (alookup acc y).isSome) := by
        simp [List.mem_cons, hy]
      by_cases hc : y ∈ t ∨ (alookup acc y).isSome
      · rw [if_pos hc, if_pos (hmem.mpr hc)]
      · rw [if_neg hc, if_neg (fun h => hc (hmem.mp h))]

theorem buildInDegree_aux_alookup (entries : DepMap) (acc : List (Node × Int)) (y : Node) :
    alookup (entries.foldl
        (fun acc p => p.2.foldl (fun a n => aincr a n) (asetdefault acc p.1 0)) acc) y =
      if (y ∈ dkeys entries ∨ y ∈ targetsList entries) ∨ (alookup acc y).isSome
      then some ((alookup acc y).getD 0 + initDeg entries y) else none := by
  induction entries generalizing acc with
  | nil =>
    cases h : alookup acc y <;> simp [h, dkeys, targetsList, initDeg]
  | cons p rest ih =>
    simp only [List.foldl_cons]
    rw [ih]
    have hsd := alookup_asetdefault acc p.1 0 y
    have hstep := foldl_aincr_alookup p.2 (asetdefault acc p.1 0) y
    have hval : (alookup (p.2.foldl (fun a n => aincr a n) (asetdefault acc p.1 0)) y).getD 0 =
        (alookup acc y).getD 0 + p.2.count y := by
      rw [hstep]
      by_cases hc : y ∈ p.2 ∨ (alookup (asetdefault acc p.1 0) y).isSome
      · rw [if_pos hc]
        simp only [Option.getD_some]
        congr 1
        rw [hsd]
        by_cases hy : y = p.1
        · subst hy
          simp
        · rw [if_neg hy]
      · rw [if_neg hc]
        push_neg at hc
        obtain ⟨hc1, hc2⟩ := hc
        have hcnt : p.2.count y = 0 := List.count_eq_zero.mpr hc1
        have hacc : alookup acc y = none := by
          rw [hsd] at hc2
          by_cases hy : y = p.1
          · simp [hy] at hc2
          · rw [if_neg hy] at hc2
            cases h : alookup acc y
            · rfl
            · simp [h] at hc2
        simp [hcnt, hacc]
    have hsome : (alookup (p.2.foldl (fun a n => aincr a n) (asetdefault acc p.1 0)) y).isSome ↔
        (y ∈ p.2 ∨ y = p.1 ∨ (alookup acc y).isSome) := by
      rw [hstep]
      by_cases hc : y ∈ p.2 ∨ (alookup (asetdefault acc p.1 0) y).isSome
      · rw [if_pos hc]
        simp only [Option.isSome_some, true_iff]
        rcases hc with hc | hc
        · exact Or.inl hc
        · rw [hsd] at hc
          by_cases hy : y = p.1
          · exact Or.inr (Or.inl hy)
          · rw [if_neg hy] at hc
            exact Or.inr (Or.inr hc)
      · rw [if_neg hc]
        push_neg at hc
        obtain ⟨hc1, hc2⟩ := hc
        rw [hsd] at hc2
        by_cases hy : y = p.1
        · simp [hy] at hc2
        · rw [if_neg hy] at hc2
          simp only [Option.isSome_none, Bool.false_eq_true, false_iff]
          push_neg
          refine ⟨hc1, hy, ?_⟩
          cases h : alookup acc y
          · simp
          · simp [h] at hc2
    have hcond : ((y ∈ dkeys rest ∨ y ∈ targetsList rest) ∨
        (alookup (p.2.foldl (fun a n => aincr a n) (asetdefault acc p.1 0)) y).isSome) ↔
        ((y ∈ dkeys (p :: rest) ∨ y ∈ targetsList (p :: rest)) ∨ (alookup acc y).isSome) := by
      rw [hsome]
      simp only [dkeys, targetsList, List.map_cons, List.mem_cons, List.flatMap_cons,
        List.mem_append]
      tauto
    by_cases hc : (y ∈ dkeys (p :: rest) ∨ y ∈ targetsList (p :: rest)) ∨
        (alookup acc y).isSome
    · rw [if_pos (hcond.mpr hc), if_pos hc, hval]
      have : initDeg (p :: rest) y = p.2.count y + initDeg rest y := by
        unfold initDeg
        simp
      rw [this]
      congr 1
      push_cast
      ring
    · rw [if_neg (fun h => hc (hcond.mp h)), if_neg hc]

theorem alookup_buildInDegree (dMap : DepMap) (y : Node) :
    alookup (buildInDegree dMap) y =
      if y ∈ dkeys dMap ∨ y ∈ targetsList dMap
      then some ((initDeg dMap y : Int)) else none := by
  unfold buildInDegree
  rw [buildInDegree_aux_alookup]
  simp [alookup]

theorem mem_buildInDegree_fst (dMap : DepMap) (y : Node) :
    y ∈ (buildInDegree dMap).map Prod.fst ↔
      (y ∈ dkeys dMap ∨ y ∈ targetsList dMap) := by
  rw [← alookup_isSome, alookup_buildInDegree]
  by_cases h : y ∈ dkeys dMap ∨ y ∈ targetsList dMap
  · simp [h]
  · simp [h]

theorem asetdefault_fst_nodup (l : List (Node × Int)) (k : Node) (v : Int)
    (h : (l.map Prod.fst).Nodup) : ((asetdefault l k v).map Prod.fst).Nodup := by
  rw [asetdefault_map_fst]
  by_cases hk : k ∈ l.map Prod.fst
  · rw [if_pos hk]
    exact h
  · rw [if_neg hk]
    simp [List.nodup_append, h, hk]

theorem aincr_fst_nodup (l : List (Node × Int)) (k : Node)
    (h : (l.map Prod.fst).Nodup) : ((aincr l k).map Prod.fst).Nodup := by
  rw [aincr_map_fst]
  by_cases hk : k ∈ l.map Prod.fst
  · rw [if_pos hk]
    exact h
  · rw [if_neg hk]
    simp [List.nodup_append, h, hk]

theorem foldl_aincr_fst_nodup (ns : List Node) (acc : List (Node × Int))
    (h : (acc.map Prod.fst).Nodup) :
    (((ns.foldl (fun a n => aincr a n) acc)).map Prod.fst).Nodup := by
  induction ns generalizing acc with
  | nil => exact h
  | cons n t ih =>
    exact ih _ (aincr_fst_nodup acc n h)

theorem buildInDegree_fst_nodup (dMap : DepMap) :
    ((buildInDegree dMap).map Prod.fst).Nodup := by
  unfold buildInDegree
  suffices h : ∀ (entries : DepMap) (acc : List (Node × Int)),
      (acc.map Prod.fst).Nodup →
      ((entries.foldl
        (fun acc p => p.2.foldl (fun a n => aincr a n) (asetdefault acc p.1 0)) acc).map
          Prod.fst).Nodup by
    exact h dMap [] (by simp)
  intro entries
  induction entries with
  | nil => exact fun acc h => h
  | cons p rest ih =>
    intro acc hacc
    exact ih _ (foldl_aincr_fst_nodup p.2 _ (asetdefault_fst_nodup acc p.1 0 hacc))

/-! ### `resDeg` and edges -/

theorem edge_of_count_pos {dMap : DepMap} (hND : (dkeys dMap).Nodup)
    {p : Node × List Node} (hp : p ∈ dMap) {y : Node} (h : p.2.count y ≠ 0) :
    Edge dMap p.1 y := by
  have hy : y ∈ p.2 := by
    by_contra hy
    exact h (List.count_eq_zero.mpr hy)
  exact ⟨p.2, dlookup_eq_some_of_mem hND hp, hy⟩

theorem mem_popped_of_resDeg_zero {dMap : DepMap} {P : List Node} {y : Node}
    (h : resDeg dMap P y = 0) {x : Node} (hx : Edge dMap x y) : x ∈ P := by
  by_contra hxP
  obtain ⟨ns, hlk, hy⟩ := hx
  have hmem := mem_of_dlookup_eq_some hlk
  unfold resDeg at h
  rw [List.sum_eq_zero_iff] at h
  have : ns.count y = 0 := by
    apply h
    refine List.mem_map.mpr ⟨(x, ns), List.mem_filter.mpr ⟨hmem, by simpa⟩, rfl⟩
  rw [List.count_eq_zero] at this
  exact this hy

theorem exists_edge_of_resDeg_ne {dMap : DepMap} (hND : (dkeys dMap).Nodup)
    {P : List Node} {y : Node} (h : resDeg dMap P y ≠ 0) :
    ∃ x, x ∉ P ∧ Edge dMap x y := by
  unfold resDeg at h
  have : ∃ n ∈ (dMap.filter (fun p => decide (p.1 ∉ P))).map (fun p => p.2.count y),
      n ≠ 0 := by
    by_contra hc
    push_neg at hc
    exact h (List.sum_eq_zero_iff.mpr (by simpa using hc))
  obtain ⟨n, hn, hne⟩ := this
  obtain ⟨p, hpf, rfl⟩ := List.mem_map.mp hn
  obtain ⟨hpm, hpP⟩ := List.mem_filter.mp hpf
  simp only [decide_eq_true_eq] at hpP
  exact ⟨p.1, hpP, edge_of_count_pos hND hpm hne⟩

theorem resDeg_congr_notkey {l : DepMap} {c : Node} {P : List Node} {y : Node}
    (hc : ∀ p ∈ l, p.1 ≠ c) : resDeg l (P ++ [c]) y = resDeg l P y := by
  unfold resDeg
  have heq : l.filter (fun p => decide (p.1 ∉ P ++ [c])) =
      l.filter (fun p => decide (p.1 ∉ P)) := by
    apply List.filter_congr
    intro p hp
    have hiff : (p.1 ∉ P ++ [c]) ↔ (p.1 ∉ P) := by
      simp only [List.mem_append, List.mem_singleton]
      constructor
      · intro h hP
        exact h (Or.inl hP)
      · rintro h (hh | hh)
        · exact h hh
        · exact hc p hp hh
    exact decide_eq_decide.mpr hiff
  rw [heq]

theorem resDeg_append {dMap : DepMap} (hND : (dkeys dMap).Nodup) {c : Node}
    {ns : List Node} (hlk : dlookup dMap c = some ns) (hc : c ∉ P) (y : Node) :
    resDeg dMap (P ++ [c]) y + ns.count y = resDeg dMap P y := by
  have hmem : (c, ns) ∈ dMap := mem_of_dlookup_eq_some hlk
  clear hlk
  induction dMap with
  | nil => cases hmem
  | cons p rest ih =>
    simp only [dkeys, List.map_cons, List.nodup_cons] at hND
    rcases List.mem_cons.mp hmem with h1 | h1
    · subst h1
      have hrest : ∀ q ∈ rest, q.1 ≠ c := by
        intro q hq hqc
        exact hND.1 (List.mem_map.mpr ⟨q, hq, hqc⟩)
      rw [resDeg_cons, resDeg_cons]
      have h2 : (c, ns).1 ∉ P := hc
      have h3 : ¬ ((c, ns).1 ∉ P ++ [c]) := by simp
      rw [if_neg h3, if_pos h2]
      rw [resDeg_congr_notkey hrest]
      dsimp only
      omega
    · have hp1 : p.1 ≠ c := by
        intro hpc
        exact hND.1 (List.mem_map.mpr ⟨(c, ns), h1, hpc.symm⟩)
      rw [resDeg_cons, resDeg_cons]
      have hiff : (p.1 ∉ P ++ [c]) ↔ (p.1 ∉ P) := by
        simp only [List.mem_append, List.mem_singleton]
        constructor
        · intro h hP
          exact h (Or.inl hP)
        · intro h hh
          rcases hh with hh | hh
          · exact h hh
          · exact hp1 hh
      have := ih (by simpa [dkeys] using hND.2) h1
      by_cases hpP : p.1 ∉ P
      · rw [if_pos (hiff.mpr hpP), if_pos hpP]
        omega
      · rw [if_neg (fun h => hpP (hiff.mp h)), if_neg hpP]
        omega

theorem count_le_resDeg {dMap : DepMap} (hND : (dkeys dMap).Nodup) {c : Node}
    {ns : List Node} (hlk : dlookup dMap c = some ns) (hc : c ∉ P) (y : Node) :
    ns.count y ≤ resDeg dMap P y := by
  have := resDeg_append hND hlk hc y
  omega

/-! ### Characterizing `decrNeighbors` -/

theorem decrNeighbors_spec (ns : List Node) (inDeg : List (Node × Int)) (acc : List Node)
    (hdom : ∀ n ∈ ns, n ∈ inDeg.map Prod.fst)
    (hge : ∀ y v, alookup inDeg y = some v → ((ns.count y : Int)) ≤ v) :
    ∃ inDeg2 enq,
      decrNeighbors ns inDeg acc = some (inDeg2, acc ++ enq) ∧
      inDeg2.map Prod.fst = inDeg.map Prod.fst ∧
      (∀ y v, alookup inDeg y = some v →
        alookup inDeg2 y = some (v - (ns.count y : Int))) ∧
      (∀ y, alookup inDeg y = none → alookup inDeg2 y = none) ∧
      (∀ y, y ∈ enq ↔ (y ∈ ns ∧ alookup inDeg y = some ((ns.count y : Int)))) ∧
      enq.Nodup := by
  induction ns generalizing inDeg acc with
  | nil =>
    refine ⟨inDeg, [], by simp [decrNeighbors], rfl, ?_, fun y h => h, ?_, List.nodup_nil⟩
    · intro y v h
      simpa using h
    · intro y
      simp
  | cons n t ih =>
    have hn : n ∈ inDeg.map Prod.fst := hdom n (List.mem_cons_self n t)
    obtain ⟨v, hv⟩ : ∃ v, alookup inDeg n = some v := by
      have := (alookup_isSome inDeg n).mpr hn
      cases h : alookup inDeg n
      · simp [h] at this
      · exact ⟨_, rfl⟩
    have hvt : ((t.count n : Int)) + 1 ≤ v := by
      have := hge n v hv
      have hc : (n :: t).count n = t.count n + 1 := List.count_cons_self n t
      rw [hc] at this
      push_cast at this
      omega
    set inDeg' := aset inDeg n (v - 1) with hinDeg'
    have hlk' : ∀ y, alookup inDeg' y = if y = n then some (v - 1) else alookup inDeg y :=
      fun y => alookup_aset inDeg n (v - 1) y
    have hfst' : inDeg'.map Prod.fst = inDeg.map Prod.fst := aset_map_fst _ hn
    have hdom' : ∀ m ∈ t, m ∈ inDeg'.map Prod.fst := by
      intro m hm
      rw [hfst']
      exact hdom m (List.mem_cons_of_mem n hm)
    have hge' : ∀ y w, alookup inDeg' y = some w → ((t.count y : Int)) ≤ w := by
      intro y w hw
      rw [hlk'] at hw
      by_cases hy : y = n
      · rw [if_pos hy] at hw
        obtain rfl := Option.some_injective _ hw
        subst hy
        omega
      · rw [if_neg hy] at hw
        have := hge y w hw
        have hc : (n :: t).count y = t.count y := List.count_cons_of_ne hy t
        rw [hc] at this
        exact this
    obtain ⟨inDeg2, enq', hrec, hfst2, hsome2, hnone2, henq2, hnd2⟩ :=
      ih inDeg' (if v - 1 = 0 then acc ++ [n] else acc) hdom' hge'
    refine ⟨inDeg2, (if v - 1 = 0 then [n] else []) ++ enq', ?_, ?_, ?_, ?_, ?_, ?_⟩
    · show decrNeighbors (n :: t) inDeg acc = _
      simp only [decrNeighbors, hv]
      rw [hrec]
      by_cases h0 : v - 1 = 0
      · rw [if_pos h0, if_pos h0]
        simp [List.append_assoc]
      · rw [if_neg h0, if_neg h0]
        simp
    · rw [hfst2, hfst']
    · intro y u hu
      by_cases hy : y = n
      · have h1 : alookup inDeg' y = some (v - 1) := by rw [hlk', if_pos hy]
        have h2 := hsome2 y (v - 1) h1
        rw [h2]
        have huv : u = v := by
          rw [hy, hv] at hu
          exact (Option.some_injective _ hu).symm
        have hc : ((n :: t).count y : Int) = (t.count y : Int) + 1 := by
          rw [hy, List.count_cons_self]
          push_cast
          ring
        rw [huv]
        congr 1
        omega
      · have h1 : alookup inDeg' y = some u := by rw [hlk', if_neg hy]; exact hu
        have h2 := hsome2 y u h1
        rw [h2]
        have hc : (n :: t).count y = t.count y := List.count_cons_of_ne hy t
        rw [hc]
    · intro y hy
      have hyn : y ≠ n := by
        intro h
        subst h
        rw [hv] at hy
        cases hy
      have : alookup inDeg' y = none := by rw [hlk', if_neg hyn]; exact hy
      exact hnone2 y this
    · intro y
      rw [List.mem_append, henq2]
      by_cases hy : y = n
      · subst hy
        constructor
        · rintro (h | ⟨hyt, hlk2⟩)
          · have h0 : v - 1 = 0 := by
              by_contra hne
              rw [if_neg hne] at h
              cases h
            have : (t.count y : Int) = 0 := by omega
            have ht0 : t.count y = 0 := by exact_mod_cast this
            refine ⟨List.mem_cons_self y t, ?_⟩
            rw [hv]
            congr 1
            rw [List.count_cons_self]
            omega
          · rw [hlk', if_pos rfl] at hlk2
            obtain h := Option.some_injective _ hlk2
            refine ⟨List.mem_cons_self y t, ?_⟩
            rw [hv]
            congr 1
            rw [List.count_cons_self]
            push_cast
            omega
        · rintro ⟨-, hlk2⟩
          rw [hv] at hlk2
          obtain hveq := Option.some_injective _ hlk2
          rw [List.count_cons_self] at hveq
          by_cases ht0 : t.count y = 0
          · left
            have : v - 1 = 0 := by
              rw [ht0] at hveq
              omega
            rw [if_pos this]
            exact List.mem_singleton.mpr rfl
          · right
            refine ⟨List.count_pos_iff.mp (by omega), ?_⟩
            rw [hlk', if_pos rfl]
            congr 1
            push_cast at hveq ⊢
            omega
      · constructor
        · rintro (h | ⟨hyt, hlk2⟩)
          · exfalso
            by_cases h0 : v - 1 = 0
            · rw [if_pos h0] at h
              exact hy (List.mem_singleton.mp h)
            · rw [if_neg h0] at h
              cases h
          · rw [hlk', if_neg hy] at hlk2
            refine ⟨List.mem_cons_of_mem n hyt, ?_⟩
            rw [List.count_cons_of_ne hy]
            exact hlk2
        · rintro ⟨hmem, hlk2⟩
          right
          have hyt : y ∈ t := by
            rcases List.mem_cons.mp hmem with h | h
            · exact absurd h hy
            · exact h
          refine ⟨hyt, ?_⟩
          rw [hlk', if_neg hy]
          rw [List.count_cons_of_ne hy] at hlk2
          exact hlk2
    · by_cases h0 : v - 1 = 0
      · rw [if_pos h0]
        simp only [List.singleton_append, List.nodup_cons]
        refine ⟨?_, hnd2⟩
        intro hmem
        obtain ⟨hnt, hlk2⟩ := (henq2 n).mp hmem
        rw [hlk', if_pos rfl, h0] at hlk2
        obtain h := Option.some_injective _ hlk2
        have : t.count n = 0 := by exact_mod_cast h.symm
        rw [List.count_eq_zero] at this
        exact this hnt
      · rw [if_neg h0]
        simpa using hnd2

/-! ### Counting helpers for the termination measure -/

theorem filter_length_split {α : Type} [DecidableEq α] (dom : List α)
    (a b : α → Bool) (enq : List α)
    (hiff : ∀ y ∈ dom, (a y = true ↔ (b y = true ∨ y ∈ enq)))
    (hdisj : ∀ y ∈ dom, ¬(b y = true ∧ y ∈ enq)) :
    (dom.filter a).length =
      (dom.filter b).length + (dom.filter (fun y => decide (y ∈ enq))).length := by
  induction dom with
  | nil => simp
  | cons y rest ih =>
    have hy := hiff y (List.mem_cons_self y rest)
    have hdy := hdisj y (List.mem_cons_self y rest)
    have ihr := ih (fun z hz => hiff z (List.mem_cons_of_mem y hz))
      (fun z hz => hdisj z (List.mem_cons_of_mem y hz))
    by_cases ha : a y = true
    · rcases hy.mp ha with hb | henq
      · have hne : ¬ (y ∈ enq) := fun h => hdy ⟨hb, h⟩
        simp only [List.filter_cons, ha, hb, if_pos, decide_eq_true_eq]
        rw [if_neg (by simpa using hne)]
        simp only [List.length_cons]
        omega
      · have hnb : ¬ (b y = true) := fun h => hdy ⟨h, henq⟩
        simp only [List.filter_cons, ha, if_pos]
        rw [if_neg (by simpa using hnb), if_pos (by simpa using henq)]
        simp only [List.length_cons]
        omega
    · have hnb : ¬ (b y = true) := fun h => ha (hy.mpr (Or.inl h))
      have hne : ¬ (y ∈ enq) := fun h => ha (hy.mpr (Or.inr h))
      simp only [List.filter_cons]
      rw [if_neg (by simpa using ha), if_neg (by simpa using hnb),
        if_neg (by simpa using hne)]
      exact ihr

theorem filter_mem_length {α : Type} [DecidableEq α] (dom enq : List α)
    (hdom : dom.Nodup) (henq : enq.Nodup) (hsub : ∀ y ∈ enq, y ∈ dom) :
    (dom.filter (fun y => decide (y ∈ enq))).length = enq.length := by
  have h1 : (dom.filter (fun y => decide (y ∈ enq))).Nodup := hdom.filter _
  rw [← List.toFinset_card_of_nodup h1, ← List.toFinset_card_of_nodup henq]
  congr 1
  ext x
  simp only [List.mem_toFinset, List.mem_filter, decide_eq_true_eq]
  constructor
  · exact fun h => h.2
  · exact fun h => ⟨hsub x h, h⟩

theorem filter_disjoint_le {α : Type} (l : List α) (a b : α → Bool)
    (h : ∀ y ∈ l, ¬(a y = true ∧ b y = true)) :
    (l.filter a).length + (l.filter b).length ≤ l.length := by
  induction l with
  | nil => simp
  | cons y rest ih =>
    have hy := h y (List.mem_cons_self y rest)
    have ihr := ih (fun z hz => h z (List.mem_cons_of_mem y hz))
    by_cases ha : a y = true
    · have hnb : ¬ (b y = true) := fun hb => hy ⟨ha, hb⟩
      simp only [List.filter_cons, ha, if_pos]
      rw [if_neg (by simpa using hnb)]
      simp only [List.length_cons]
      omega
    · simp only [List.filter_cons]
      rw [if_neg (by simpa using ha)]
      by_cases hb : b y = true
      · rw [if_pos (by simpa using hb)]
        simp only [List.length_cons]
        omega
      · rw [if_neg (by simpa using hb)]
        simp only [List.length_cons]
        omega

theorem filter_val_length (inDeg : List (Node × Int))
    (hND : (inDeg.map Prod.fst).Nodup) (P : Int → Bool) :
    (inDeg.filter (fun p => P p.2)).length =
      ((inDeg.map Prod.fst).filter (fun y =>
        match alookup inDeg y with
        | some v => P v
        | none => false)).length := by
  induction inDeg with
  | nil => simp
  | cons p rest ih =>
    simp only [List.map_cons, List.nodup_cons] at hND
    have hcongr : (rest.map Prod.fst).filter (fun y =>
        match alookup (p :: rest) y with
        | some v => P v
        | none => false) =
        (rest.map Prod.fst).filter (fun y =>
        match alookup rest y with
        | some v => P v
        | none => false) := by
      apply List.filter_congr
      intro y hy
      have hne : ¬ (p.1 = y) := by
        intro h
        exact hND.1 (h ▸ hy)
      simp only [alookup, if_neg hne]
    have hpl : alookup (p :: rest) p.1 = some p.2 := by
      simp [alookup]
    by_cases hp : P p.2 = true
    · simp only [List.filter_cons, hp, if_pos, List.map_cons]
      rw [if_pos (by rw [hpl]; simpa using hp)]
      simp only [List.length_cons]
      rw [hcongr, ih hND.2]
    · simp only [List.filter_cons, List.map_cons]
      rw [if_neg (by simpa using hp), if_neg (by rw [hpl]; simpa using hp)]
      rw [hcongr, ih hND.2]

/-- The seed queue of `dependencies_sort` contains exactly the nodes whose
in-degree is zero (keys are duplicate-free after `buildInDegree`). -/
theorem mem_filter_zero_iff (inDeg : List (Node × Int))
    (hND : (inDeg.map Prod.fst).Nodup) (y : Node) :
    y ∈ (inDeg.filter (fun p => decide (p.2 = 0))).map Prod.fst ↔
      alookup inDeg y = some 0 := by
  induction inDeg with
  | nil => simp [alookup]
  | cons p rest ih =>
    simp only [List.map_cons, List.nodup_cons] at hND
    by_cases hy : p.1 = y
    · subst hy
      have hlk : alookup (p :: rest) p.1 = some p.2 := by simp [alookup]
      rw [hlk]
      by_cases h0 : p.2 = 0
      · simp only [List.filter_cons, List.map_cons]
        rw [if_pos (by simp [h0])]
        simp [h0]
      · simp only [List.filter_cons]
        rw [if_neg (by simpa using h0)]
        constructor
        · intro hmem
          exfalso
          obtain ⟨q, hq, hq1⟩ := List.mem_map.mp hmem
          have := List.mem_filter.mp hq
          exact hND.1 (hq1 ▸ List.mem_map.mpr ⟨q, this.1, rfl⟩)
        · intro h
          exact absurd (Option.some_injective _ h) h0
    · have hlk : alookup (p :: rest) y = alookup rest y := by
        simp only [alookup, if_neg hy]
      rw [hlk]
      simp only [List.filter_cons]
      by_cases h0 : p.2 = 0
      · rw [if_pos (by simpa using h0)]
        simp only [List.map_cons, List.mem_cons]
        rw [ih hND.2]
        constructor
        · rintro (h | h)
          · exact absurd h.symm hy
          · exact h
        · exact fun h => Or.inr h
      · rw [if_neg (by simpa using h0)]
        exact ih hND.2

/-! ### The loop invariant of Kahn's algorithm -/

/-- Main loop lemma: starting from any state satisfying the invariant with
enough fuel, the loop never exhausts its fuel, and if it drains the queue the
final processed list again satisfies the invariant (with an empty queue). -/
theorem kahnLoop_spec (dMap : DepMap) (hND : (dkeys dMap).Nodup) :
    ∀ (fuel : Nat) (queue : List Node) (inDeg : List (Node × Int))
      (topo : List Node) (cnt : Nat),
      LoopInv dMap queue inDeg topo cnt →
      queue.length + posCountOn (inDeg.map Prod.fst) inDeg ≤ fuel →
      (match kahnLoop dMap fuel queue inDeg topo cnt with
       | .out topo' cnt' => ∃ inDeg', LoopInv dMap [] inDeg' topo' cnt'
       | .keyErr => ∃ x, x ∈ inDeg.map Prod.fst ∧ x ∉ dkeys dMap
       | .fuelOut => False) := by
  intro fuel
  induction fuel with
  | zero =>
    intro queue inDeg topo cnt hinv hfuel
    cases queue with
    | nil =>
      simp only [kahnLoop]
      exact ⟨inDeg, hinv⟩
    | cons current rest =>
      exfalso
      simp only [List.length_cons] at hfuel
      omega
  | succ fuel ih =>
    intro queue inDeg topo cnt hinv hfuel
    cases queue with
    | nil =>
      simp only [kahnLoop]
      exact ⟨inDeg, hinv⟩
    | cons current rest =>
      obtain ⟨hcnt, topoNd, queueNd, hdisj, topoKeys, domNd, hdom, hval, queueDom,
        hzero, hpair, hself⟩ := hinv
      have hcur_dom : current ∈ inDeg.map Prod.fst :=
        queueDom current (List.mem_cons_self current rest)
      cases hdl : dlookup dMap current with
      | none =>
        simp only [kahnLoop, hdl]
        refine ⟨current, hcur_dom, ?_⟩
        intro hk
        have := (dlookup_isSome dMap current).mpr hk
        simp [hdl] at this
      | some neighbors =>
        have hcur_keys : current ∈ dkeys dMap :=
          (dlookup_isSome dMap current).mp (by simp [hdl])
        have hcur_notopo : current ∉ topo := by
          intro h
          exact hdisj current h (List.mem_cons_self current rest)
        have hcur_queue : current ∈ current :: rest := List.mem_cons_self current rest
        have hcur_rd : resDeg dMap topo current = 0 :=
          (hzero current hcur_dom).mpr (Or.inr hcur_queue)
        -- prerequisites of the decrement pass
        have hdomns : ∀ n ∈ neighbors, n ∈ inDeg.map Prod.fst := by
          intro n hn
          exact (hdom n).mpr (Or.inr (edge_mem_targets ⟨neighbors, hdl, hn⟩))
        have hge : ∀ y v, alookup inDeg y = some v → ((neighbors.count y : Int)) ≤ v := by
          intro y v hv
          have hy : y ∈ inDeg.map Prod.fst := (alookup_isSome inDeg y).mp (by simp [hv])
          have := hval y hy
          rw [hv] at this
          obtain hveq := Option.some_injective _ this
          have hle := count_le_resDeg hND hdl hcur_notopo y
          rw [hveq]
          exact_mod_cast hle
        obtain ⟨inDeg2, enq, hdn, hfst2, hsome2, hnone2, henq, henqNd⟩ :=
          decrNeighbors_spec neighbors inDeg [] hdomns hge
        rw [List.nil_append] at hdn
        have hstep : ∀ y, resDeg dMap (topo ++ [current]) y + neighbors.count y =
            resDeg dMap topo y := resDeg_append hND hdl hcur_notopo
        -- characterization of the enqueued nodes in terms of residual degrees
        have henq' : ∀ y, y ∈ enq ↔
            (y ∈ neighbors ∧ resDeg dMap topo y = neighbors.count y) := by
          intro y
          rw [henq]
          constructor
          · rintro ⟨hyn, hlk⟩
            refine ⟨hyn, ?_⟩
            have hy : y ∈ inDeg.map Prod.fst := hdomns y hyn
            have := hval y hy
            rw [hlk] at this
            exact_mod_cast (Option.some_injective _ this).symm
          · rintro ⟨hyn, hrd⟩
            refine ⟨hyn, ?_⟩
            have hy : y ∈ inDeg.map Prod.fst := hdomns y hyn
            rw [hval y hy, hrd]
        have henq_pos : ∀ y ∈ enq, resDeg dMap topo y ≠ 0 := by
          intro y hy
          obtain ⟨hyn, hrd⟩ := (henq' y).mp hy
          have : neighbors.count y ≠ 0 := by
            intro h
            rw [List.count_eq_zero] at h
            exact h hyn
          omega
        have henq_new : ∀ y ∈ enq, y ∉ topo ∧ y ∉ current :: rest := by
          intro y hy
          have hne := henq_pos y hy
          have hydom : y ∈ inDeg.map Prod.fst :=
            hdomns y ((henq' y).mp hy).1
          have := hzero y hydom
          constructor
          · intro h
            exact hne (this.mpr (Or.inl h))
          · intro h
            exact hne (this.mpr (Or.inr h))
        -- the loop takes one step
        have hred : kahnLoop dMap (fuel + 1) (current :: rest) inDeg topo cnt =
            kahnLoop dMap fuel (rest ++ enq) inDeg2 (topo ++ [current]) (cnt + 1) := by
          simp only [kahnLoop, hdl, hdn]
        rw [hred]
        -- new invariant
        have hinv2 : LoopInv dMap (rest ++ enq) inDeg2 (topo ++ [current]) (cnt + 1) := by
          refine ⟨?_, ?_, ?_, ?_, ?_, ?_, ?_, ?_, ?_, ?_, ?_, ?_⟩
          · simp [hcnt]
          · rw [List.nodup_append]
            exact ⟨topoNd, List.nodup_singleton _, by
              intro a ha
              simp only [List.mem_singleton]
              intro h
              exact hcur_notopo (h ▸ ha)⟩
          · rw [List.nodup_append]
            refine ⟨queueNd.of_cons, henqNd, ?_⟩
            intro y hyrest
            intro hyenq
            have := (henq_new y hyenq).2
            exact this (List.mem_cons_of_mem current hyrest)
          · intro x hx
            rw [List.mem_append] at hx ⊢
            push_neg
            rcases hx with hx | hx
            · constructor
              · intro h
                exact hdisj x hx (List.mem_cons_of_mem current h)
              · intro h
                have hrd0 : resDeg dMap topo x = 0 :=
                  (hzero x ((hdom x).mpr (Or.inl (topoKeys x hx)))).mpr (Or.inl hx)
                exact henq_pos x h hrd0
            · rw [List.mem_singleton] at hx
              subst hx
              constructor
              · intro h
                exact queueNd.not_mem h
              · intro h
                exact henq_pos x h hcur_rd
          · intro x hx
            rcases List.mem_append.mp hx with hx | hx
            · exact topoKeys x hx
            · rw [List.mem_singleton] at hx
              exact hx ▸ hcur_keys
          · rw [hfst2]
            exact domNd
          · intro y
            rw [hfst2]
            exact hdom y
          · intro y hy
            rw [hfst2] at hy
            have hv := hval y hy
            have h2 := hsome2 y _ hv
            rw [h2]
            congr 1
            have := hstep y
            omega
          · intro x hx
            rw [hfst2]
            rcases List.mem_append.mp hx with hx | hx
            · exact queueDom x (List.mem_cons_of_mem current hx)
            · exact hdomns x ((henq' x).mp hx).1
          · intro y hy
            rw [hfst2] at hy
            have hzy := hzero y hy
            have hsy := hstep y
            constructor
            · intro h0
              by_cases hc : neighbors.count y = 0
              · have : resDeg dMap topo y = 0 := by omega
                rcases hzy.mp this with h | h
                · exact Or.inl (List.mem_append.mpr (Or.inl h))
                · rcases List.mem_cons.mp h with h | h
                  · exact Or.inl (List.mem_append.mpr (Or.inr (by simp [h])))
                  · exact Or.inr (List.mem_append.mpr (Or.inl h))
              · have hyn : y ∈ neighbors := by
                  by_contra hyn
                  exact hc (List.count_eq_zero.mpr hyn)
                have : resDeg dMap topo y = neighbors.count y := by omega
                exact Or.inr (List.mem_append.mpr (Or.inr ((henq' y).mpr ⟨hyn, this⟩)))
            · intro h
              rcases h with h | h
              · rcases List.mem_append.mp h with h | h
                · have : resDeg dMap topo y = 0 := hzy.mpr (Or.inl h)
                  omega
                · rw [List.mem_singleton] at h
                  subst h
                  omega
              · rcases List.mem_append.mp h with h | h
                · have : resDeg dMap topo y = 0 :=
                    hzy.mpr (Or.inr (List.mem_cons_of_mem current h))
                  omega
                · have := ((henq' y).mp h).2
                  omega
          · rw [List.pairwise_append]
            refine ⟨hpair, List.pairwise_singleton _ _, ?_⟩
            intro a ha b hb
            rw [List.mem_singleton] at hb
            subst hb
            intro hedge
            have hadom : a ∈ inDeg.map Prod.fst := (hdom a).mpr (Or.inl (topoKeys a ha))
            have hrd0 : resDeg dMap topo a = 0 := (hzero a hadom).mpr (Or.inl ha)
            exact hcur_notopo (mem_popped_of_resDeg_zero hrd0 hedge)
          · intro x hx
            rcases List.mem_append.mp hx with hx | hx
            · exact hself x hx
            · rw [List.mem_singleton] at hx
              subst hx
              intro hedge
              exact hcur_notopo (mem_popped_of_resDeg_zero hcur_rd hedge)
        -- new fuel bound
        have hposcount : posCountOn (inDeg.map Prod.fst) inDeg =
            posCountOn (inDeg.map Prod.fst) inDeg2 + enq.length := by
          unfold posCountOn
          have hsplit := filter_length_split (inDeg.map Prod.fst)
            (fun y => match alookup inDeg y with
              | some v => decide (0 < v)
              | none => false)
            (fun y => match alookup inDeg2 y with
              | some v => decide (0 < v)
              | none => false)
            enq
            (by
              intro y hy
              have hv := hval y hy
              have hv2 := hsome2 y _ hv
              have hle := count_le_resDeg hND hdl hcur_notopo y
              have hsy := hstep y
              simp only [hv, hv2, decide_eq_true_eq]
              rw [henq' y]
              constructor
              · intro hpos
                by_cases hc : (resDeg dMap topo y : Int) - (neighbors.count y : Int) = 0
                · right
                  have h1 : resDeg dMap topo y = neighbors.count y := by
                    omega
                  have h2 : y ∈ neighbors := by
                    have : neighbors.count y ≠ 0 := by omega
                    exact List.count_pos_iff.mp (by omega)
                  exact ⟨h2, h1⟩
                · left
                  omega
              · rintro (hpos | ⟨hyn, heqc⟩)
                · omega
                · have : neighbors.count y ≠ 0 := by
                    intro h
                    rw [List.count_eq_zero] at h
                    exact h hyn
                  omega)
            (by
              rintro y hy ⟨hb, hmem⟩
              have hv := hval y hy
              have hv2 := hsome2 y _ hv
              simp only [hv2, decide_eq_true_eq] at hb
              have := ((henq' y).mp hmem).2
              omega)
          rw [hsplit]
          congr 1
          exact filter_mem_length _ enq domNd henqNd
            (fun y hy => hdomns y ((henq' y).mp hy).1)
        have hfuel2 : (rest ++ enq).length +
            posCountOn (inDeg2.map Prod.fst) inDeg2 ≤ fuel := by
          have hfsteq : inDeg2.map Prod.fst = inDeg.map Prod.fst := hfst2
          rw [hfsteq]
          simp only [List.length_cons] at hfuel
          rw [hposcount] at hfuel
          simp only [List.length_append]
          omega
        have hres := ih (rest ++ enq) inDeg2 (topo ++ [current]) (cnt + 1) hinv2 hfuel2
        cases hk : kahnLoop dMap fuel (rest ++ enq) inDeg2 (topo ++ [current]) (cnt + 1) with
        | out topo' cnt' =>
          rw [hk] at hres
          exact hres
        | keyErr =>
          rw [hk] at hres
          obtain ⟨x, hx1, hx2⟩ := hres
          rw [hfst2] at hx1
          exact ⟨x, hx1, hx2⟩
        | fuelOut =>
          rw [hk] at hres
          exact hres.elim

/-! ### From the final invariant to the three sorting claims -/

theorem rel_index_lt {l : List Node} {r : Node → Node → Prop}
    (hp : l.Pairwise (fun a b => ¬ r b a))
    (hirr : ∀ x ∈ l, ¬ r x x)
    {x y : Node} (hx : x ∈ l) (hy : y ∈ l) (hr : r x y) :
    l.indexOf x < l.indexOf y := by
  have hxl := List.indexOf_lt_length.mpr hx
  have hyl := List.indexOf_lt_length.mpr hy
  rcases Nat.lt_trichotomy (l.indexOf x) (l.indexOf y) with h | h | h
  · exact h
  · exfalso
    have h1 : l.get ⟨l.indexOf x, hxl⟩ = x := List.indexOf_get hxl
    have h2 : l.get ⟨l.indexOf y, hyl⟩ = y := List.indexOf_get hyl
    have hxy : x = y := by
      rw [← h1, ← h2]
      congr 1
      exact Fin.ext h
    exact hirr x hx (hxy ▸ hr)
  · exfalso
    have := List.pairwise_iff_get.mp hp ⟨l.indexOf y, hyl⟩ ⟨l.indexOf x, hxl⟩ h
    rw [List.indexOf_get hyl, List.indexOf_get hxl] at this
    exact this hr

theorem transGen_index_lt {dMap : DepMap} {topo : List Node}
    (hpair : topo.Pairwise (fun a b => ¬ Edge dMap b a))
    (hself : ∀ x ∈ topo, ¬ Edge dMap x x)
    (hmem : ∀ y ∈ dkeys dMap, y ∈ topo)
    (hclosed : ∀ y ∈ targetsList dMap, y ∈ dkeys dMap)
    {x z : Node} (h : Relation.TransGen (Edge dMap) x z) :
    topo.indexOf x < topo.indexOf z := by
  induction h with
  | single he =>
    exact rel_index_lt hpair hself (hmem _ (edge_mem_keys he))
      (hmem _ (hclosed _ (edge_mem_targets he))) he
  | tail htg he ih =>
    have := rel_index_lt hpair hself (hmem _ (edge_mem_keys he))
      (hmem _ (hclosed _ (edge_mem_targets he))) he
    omega

/-- If every node of a nonempty set has a dependent inside the set, the graph
has a cycle (pigeonhole on iterated predecessors). -/
theorem exists_cycle_of_pred (dMap : DepMap) (U : List Node) (hU : U ≠ [])
    (hpred : ∀ y ∈ U, ∃ x, x ∈ U ∧ Edge dMap x y) :
    ∃ z, Relation.TransGen (Edge dMap) z z := by
  obtain ⟨u0, hu0⟩ := List.exists_mem_of_ne_nil U hU
  have hchoice : ∀ y, ∃ x, y ∈ U → (x ∈ U ∧ Edge dMap x y) := by
    intro y
    by_cases h : y ∈ U
    · obtain ⟨x, hx⟩ := hpred y h
      exact ⟨x, fun _ => hx⟩
    · exact ⟨y, fun h' => absurd h' h⟩
  choose g hg using hchoice
  set f : ℕ → Node := fun n => g^[n] u0 with hf
  have hfU : ∀ n, f n ∈ U := by
    intro n
    induction n with
    | zero => simpa [hf]
    | succ n ih =>
      have hit : f (n + 1) = g (f n) := by
        simp only [hf, Function.iterate_succ_apply']
      rw [hit]
      exact (hg (f n) ih).1
  have hfE : ∀ n, Edge dMap (f (n + 1)) (f n) := by
    intro n
    have hit : f (n + 1) = g (f n) := by
      simp only [hf, Function.iterate_succ_apply']
    rw [hit]
    exact (hg (f n) (hfU n)).2
  have hchain : ∀ n d, Relation.TransGen (Edge dMap) (f (n + d + 1)) (f n) := by
    intro n d
    induction d with
    | zero => exact Relation.TransGen.single (hfE n)
    | succ d ih =>
      exact Relation.TransGen.head (hfE (n + d + 1)) ih
  have hcard : (U.toFinset).card < (Finset.range (U.length + 1)).card := by
    rw [Finset.card_range]
    have := U.toFinset_card_le
    omega
  have hmaps : ∀ n ∈ Finset.range (U.length + 1), f n ∈ U.toFinset := by
    intro n _
    exact List.mem_toFinset.mpr (hfU n)
  obtain ⟨i, hi, j, hj, hij, heq⟩ :=
    Finset.exists_ne_map_eq_of_card_lt_of_maps_to hcard hmaps
  rcases Nat.lt_or_ge i j with h | h
  · refine ⟨f j, ?_⟩
    have hc := hchain i (j - i - 1)
    have hrw : i + (j - i - 1) + 1 = j := by omega
    rw [hrw] at hc
    rw [heq] at hc
    exact hc
  · have hji : j < i := by omega
    refine ⟨f i, ?_⟩
    have hc := hchain j (i - j - 1)
    have hrw : j + (i - j - 1) + 1 = i := by omega
    rw [hrw] at hc
    rw [← heq] at hc
    exact hc

/-- A key that is never popped lets us extract a cycle from the final state. -/
theorem final_cycle_of_unpopped (dMap : DepMap) (hND : (dkeys dMap).Nodup)
    {inDeg' : List (Node × Int)} {topo : List Node} {cnt : Nat}
    (hinv : LoopInv dMap [] inDeg' topo cnt)
    {w : Node} (hw : w ∈ dkeys dMap) (hwt : w ∉ topo) :
    ∃ z, Relation.TransGen (Edge dMap) z z := by
  have hwU : w ∈ (dkeys dMap).filter (fun y => decide (y ∉ topo)) :=
    List.mem_filter.mpr ⟨hw, by simpa⟩
  apply exists_cycle_of_pred dMap ((dkeys dMap).filter (fun y => decide (y ∉ topo)))
    (by intro h; rw [h] at hwU; cases hwU)
  intro y hy
  obtain ⟨hyk, hyt⟩ := List.mem_filter.mp hy
  simp only [decide_eq_true_eq] at hyt
  have hydom : y ∈ inDeg'.map Prod.fst := (hinv.hdom y).mpr (Or.inl hyk)
  have hrd : resDeg dMap topo y ≠ 0 := by
    intro h0
    rcases (hinv.hzero y hydom).mp h0 with h | h
    · exact hyt h
    · cases h
  obtain ⟨x, hxt, hxe⟩ := exists_edge_of_resDeg_ne hND hrd
  exact ⟨x, List.mem_filter.mpr ⟨edge_mem_keys hxe, by simpa⟩, hxe⟩

theorem nodup_length_eq_of_mem_iff {l1 l2 : List Node} (h1 : l1.Nodup) (h2 : l2.Nodup)
    (hiff : ∀ x, x ∈ l1 ↔ x ∈ l2) : l1.length = l2.length := by
  rw [← List.toFinset_card_of_nodup h1, ← List.toFinset_card_of_nodup h2]
  congr 1
  ext x
  simp only [List.mem_toFinset]
  exact hiff x

theorem mem_of_subset_nodup_length {l1 l2 : List Node} (h1 : l1.Nodup) (h2 : l2.Nodup)
    (hsub : ∀ x ∈ l1, x ∈ l2) (hlen : l2.length ≤ l1.length) :
    ∀ x ∈ l2, x ∈ l1 := by
  have hfin : l1.toFinset = l2.toFinset := by
    apply Finset.eq_of_subset_of_card_le
    · intro x hx
      rw [List.mem_toFinset] at hx ⊢
      exact hsub x hx
    · rw [List.toFinset_card_of_nodup h1, List.toFinset_card_of_nodup h2]
      exact hlen
  intro x hx
  have hx2 : x ∈ l2.toFinset := List.mem_toFinset.mpr hx
  rw [← hfin] at hx2
  exact List.mem_toFinset.mp hx2

/-- The state of `dependencies_sort` just before the loop satisfies the
invariant. -/
theorem init_inv (dMap : DepMap) :
    LoopInv dMap
      (((buildInDegree dMap).filter (fun p => p.2 = 0)).map Prod.fst)
      (buildInDegree dMap) [] 0 := by
  have hdomnd := buildInDegree_fst_nodup dMap
  refine ⟨rfl, List.nodup_nil, ?_, by simp, by simp, hdomnd,
    mem_buildInDegree_fst dMap, ?_, ?_, ?_, List.Pairwise.nil, by simp⟩
  · exact (hdomnd.sublist ((List.filter_sublist _).map Prod.fst))
  · intro y hy
    rw [alookup_buildInDegree, if_pos ((mem_buildInDegree_fst dMap y).mp hy)]
    rw [resDeg_nil]
  · intro x hx
    obtain ⟨p, hp, rfl⟩ := List.mem_map.mp hx
    exact List.mem_map.mpr ⟨p, (List.mem_filter.mp hp).1, rfl⟩
  · intro y hy
    rw [resDeg_nil]
    have hq := mem_filter_zero_iff (buildInDegree dMap) hdomnd y
    have hl : alookup (buildInDegree dMap) y =
        some ((initDeg dMap y : Int)) := by
      rw [alookup_buildInDegree, if_pos ((mem_buildInDegree_fst dMap y).mp hy)]
    constructor
    · intro h0
      right
      rw [hq, hl, h0]
      simp
    · rintro (h | h)
      · cases h
      · rw [hq, hl] at h
        have := Option.some_injective _ h
        exact_mod_cast this

/-- The fuel passed by `dependencies_sort` covers the whole run of the loop. -/
theorem init_fuel (dMap : DepMap) :
    (((buildInDegree dMap).filter (fun p => p.2 = 0)).map Prod.fst).length +
      posCountOn ((buildInDegree dMap).map Prod.fst) (buildInDegree dMap) ≤
      (buildInDegree dMap).length := by
  have hdomnd := buildInDegree_fst_nodup dMap
  have h1 : (((buildInDegree dMap).filter (fun p => p.2 = 0)).map Prod.fst).length =
      ((buildInDegree dMap).filter (fun p => p.2 = 0)).length := List.length_map _ _
  have h2 := filter_val_length (buildInDegree dMap) hdomnd (fun v => decide (v = 0))
  have h3 := filter_disjoint_le ((buildInDegree dMap).map Prod.fst)
    (fun y => match alookup (buildInDegree dMap) y with
      | some v => decide (v = 0)
      | none => false)
    (fun y => match alookup (buildInDegree dMap) y with
      | some v => decide (0 < v)
      | none => false)
    (by
      intro y hy
      rintro ⟨ha, hb⟩
      cases h : alookup (buildInDegree dMap) y with
      | none => simp [h] at ha
      | some v =>
        simp only [h, decide_eq_true_eq] at ha hb
        omega)
  have h4 : ((buildInDegree dMap).map Prod.fst).length = (buildInDegree dMap).length :=
    List.length_map _ _
  unfold posCountOn
  rw [h1]
  rw [show ((buildInDegree dMap).filter (fun p => p.2 = 0)).length =
    (((buildInDegree dMap).map Prod.fst).filter (fun y =>
      match alookup (buildInDegree dMap) y with
      | some v => decide (v = 0)
      | none => false)).length from h2]
  omega

/-- C1: on a duplicate-free, fully resolvable, acyclic dependency graph,
`dependencies_sort` succeeds with an order listing every node exactly once and
placing every dependency before its dependents. -/
theorem c1_dependencies_sort_topological_order (dMap : DepMap)
    (hND : (dkeys dMap).Nodup)
    (hclosed : ∀ y ∈ targetsList dMap, y ∈ dkeys dMap)
    (hacyc : ∀ z, ¬ Relation.TransGen (Edge dMap) z z) :
    ∃ order, dependenciesSort dMap = Except.ok order ∧ order.Nodup ∧
      (∀ n, n ∈ order ↔ n ∈ dkeys dMap) ∧
      (∀ x y, Edge dMap x y → order.indexOf y < order.indexOf x) := by
  have hspec := kahnLoop_spec dMap hND (buildInDegree dMap).length
    (((buildInDegree dMap).filter (fun p => p.2 = 0)).map Prod.fst)
    (buildInDegree dMap) [] 0 (init_inv dMap) (init_fuel dMap)
  cases hk : kahnLoop dMap (buildInDegree dMap).length
      (((buildInDegree dMap).filter (fun p => p.2 = 0)).map Prod.fst)
      (buildInDegree dMap) [] 0 with
  | keyErr =>
    rw [hk] at hspec
    obtain ⟨x, hx1, hx2⟩ := hspec
    rw [mem_buildInDegree_fst] at hx1
    rcases hx1 with h | h
    · exact absurd h hx2
    · exact absurd (hclosed x h) hx2
  | fuelOut =>
    rw [hk] at hspec
    exact hspec.elim
  | out topo cnt =>
    rw [hk] at hspec
    obtain ⟨inDeg', hinv⟩ := hspec
    have hall : ∀ y ∈ dkeys dMap, y ∈ topo := by
      intro y hy
      by_contra hyt
      obtain ⟨z, hz⟩ := final_cycle_of_unpopped dMap hND hinv hy hyt
      exact hacyc z hz
    have hcnt_eq : cnt = dMap.length := by
      rw [hinv.hcnt]
      have hlen : topo.length = (dkeys dMap).length :=
        nodup_length_eq_of_mem_iff hinv.topoNd hND
          (fun x => ⟨fun h => hinv.topoKeys x h, fun h => hall x h⟩)
      rw [hlen]
      simp [dkeys]
    refine ⟨topo.reverse, ?_, ?_, ?_, ?_⟩
    · simp only [dependenciesSort, hk]
      rw [if_neg (fun h => h hcnt_eq)]
    · exact List.nodup_reverse.mpr hinv.topoNd
    · intro n
      rw [List.mem_reverse]
      exact ⟨fun h => hinv.topoKeys n h, fun h => hall n h⟩
    · intro x y hxy
      have hx : x ∈ topo := hall x (edge_mem_keys hxy)
      have hy : y ∈ topo := hall y (hclosed y (edge_mem_targets hxy))
      have hprev : topo.reverse.Pairwise (fun a b => ¬ Edge dMap a b) := by
        rw [List.pairwise_reverse]
        exact hinv.hpair
      refine rel_index_lt (r := fun a b => Edge dMap b a) hprev ?_
        (List.mem_reverse.mpr hy) (List.mem_reverse.mpr hx) hxy
      intro w hw
      exact hinv.hself w (List.mem_reverse.mp hw)

/-- C2: a duplicate-free, fully resolvable graph containing a cycle makes
`dependencies_sort` fail with the cyclical `DependencyError` carrying the full
graph — no truncated order is returned. -/
theorem c2_dependencies_sort_cycle_error (dMap : DepMap)
    (hND : (dkeys dMap).Nodup)
    (hclosed : ∀ y ∈ targetsList dMap, y ∈ dkeys dMap)
    (hcyc : ∃ z, Relation.TransGen (Edge dMap) z z) :
    dependenciesSort dMap = Except.error (DependencyError.cyclical dMap) := by
  obtain ⟨z, hz⟩ := hcyc
  have hspec := kahnLoop_spec dMap hND (buildInDegree dMap).length
    (((buildInDegree dMap).filter (fun p => p.2 = 0)).map Prod.fst)
    (buildInDegree dMap) [] 0 (init_inv dMap) (init_fuel dMap)
  cases hk : kahnLoop dMap (buildInDegree dMap).length
      (((buildInDegree dMap).filter (fun p => p.2 = 0)).map Prod.fst)
      (buildInDegree dMap) [] 0 with
  | keyErr =>
    rw [hk] at hspec
    obtain ⟨x, hx1, hx2⟩ := hspec
    rw [mem_buildInDegree_fst] at hx1
    rcases hx1 with h | h
    · exact absurd h hx2
    · exact absurd (hclosed x h) hx2
  | fuelOut =>
    rw [hk] at hspec
    exact hspec.elim
  | out topo cnt =>
    rw [hk] at hspec
    obtain ⟨inDeg', hinv⟩ := hspec
    simp only [dependenciesSort, hk]
    rw [if_pos ?hcnt]
    case hcnt =>
      intro hcnt_eq
      have hall : ∀ y ∈ dkeys dMap, y ∈ topo := by
        apply mem_of_subset_nodup_length hinv.topoNd hND hinv.topoKeys
        rw [← hinv.hcnt]
        have : (dkeys dMap).length = dMap.length := by simp [dkeys]
        omega
      have := transGen_index_lt hinv.hpair hinv.hself hall hclosed hz
      omega

/-- C3: a duplicate-free acyclic graph with a dangling dependency target makes
`dependencies_sort` fail with the non-cyclical (reference) `DependencyError`,
which is a different constructor than the cyclical one. -/
theorem c3_dependencies_sort_dangling_error (dMap : DepMap)
    (hND : (dkeys dMap).Nodup)
    (hacyc : ∀ z, ¬ Relation.TransGen (Edge dMap) z z)
    (hdangling : ∃ t, t ∈ targetsList dMap ∧ t ∉ dkeys dMap) :
    dependenciesSort dMap = Except.error (DependencyError.incorrect dMap) ∧
      ∀ g, DependencyError.incorrect dMap ≠ DependencyError.cyclical g := by
  refine ⟨?_, fun g h => by cases h⟩
  have hspec := kahnLoop_spec dMap hND (buildInDegree dMap).length
    (((buildInDegree dMap).filter (fun p => p.2 = 0)).map Prod.fst)
    (buildInDegree dMap) [] 0 (init_inv dMap) (init_fuel dMap)
  cases hk : kahnLoop dMap (buildInDegree dMap).length
      (((buildInDegree dMap).filter (fun p => p.2 = 0)).map Prod.fst)
      (buildInDegree dMap) [] 0 with
  | keyErr =>
    simp only [dependenciesSort, hk]
  | fuelOut =>
    rw [hk] at hspec
    exact hspec.elim
  | out topo cnt =>
    exfalso
    rw [hk] at hspec
    obtain ⟨inDeg', hinv⟩ := hspec
    obtain ⟨t, htt, htk⟩ := hdangling
    have htdom : t ∈ inDeg'.map Prod.fst := (hinv.hdom t).mpr (Or.inr htt)
    have htt' : t ∉ topo := fun h => htk (hinv.topoKeys t h)
    have hrd : resDeg dMap topo t ≠ 0 := by
      intro h0
      rcases (hinv.hzero t htdom).mp h0 with h | h
      · exact htt' h
      · cases h
    obtain ⟨x, hxt, hxe⟩ := exists_edge_of_resDeg_ne hND hrd
    obtain ⟨z, hz⟩ := final_cycle_of_unpopped dMap hND hinv (edge_mem_keys hxe) hxt
    exact hacyc z hz

/-! ### Concrete witnesses for the sorting claims -/

theorem chain2_edge {x y : Node} (h : Edge [("a", ["b"]), ("b", [])] x y) :
    x = "a" ∧ y = "b" := by
  obtain ⟨ns, hlk, hy⟩ := h
  simp only [dlookup] at hlk
  by_cases h1 : "a" = x
  · rw [if_pos h1] at hlk
    obtain rfl : ["b"] = ns := Option.some_injective _ hlk
    rw [List.mem_singleton] at hy
    exact ⟨h1.symm, hy⟩
  · rw [if_neg h1] at hlk
    by_cases h2 : "b" = x
    · rw [if_pos h2] at hlk
      obtain rfl : ([] : List Node) = ns := Option.some_injective _ hlk
      cases hy
    · rw [if_neg h2] at hlk
      cases hlk

theorem chain2_acyclic : ∀ z, ¬ Relation.TransGen (Edge [("a", ["b"]), ("b", [])]) z z := by
  have hstep : ∀ z w, Relation.TransGen (Edge [("a", ["b"]), ("b", [])]) z w →
      z = "a" ∧ w = "b" := by
    intro z w h
    induction h with
    | single he => exact chain2_edge he
    | tail htg he ih => exact ⟨ih.1, (chain2_edge he).2⟩
  intro z hz
  obtain ⟨h1, h2⟩ := hstep z z hz
  rw [h1] at h2
  exact absurd h2 (by decide)

theorem ghost_edge {x y : Node} (h : Edge [("a", ["ghost"])] x y) :
    x = "a" ∧ y = "ghost" := by
  obtain ⟨ns, hlk, hy⟩ := h
  simp only [dlookup] at hlk
  by_cases h1 : "a" = x
  · rw [if_pos h1] at hlk
    obtain rfl : ["ghost"] = ns := Option.some_injective _ hlk
    rw [List.mem_singleton] at hy
    exact ⟨h1.symm, hy⟩
  · rw [if_neg h1] at hlk
    cases hlk

theorem ghost_acyclic : ∀ z, ¬ Relation.TransGen (Edge [("a", ["ghost"])]) z z := by
  have hstep : ∀ z w, Relation.TransGen (Edge [("a", ["ghost"])]) z w →
      z = "a" ∧ w = "ghost" := by
    intro z w h
    induction h with
    | single he => exact ghost_edge he
    | tail htg he ih => exact ⟨ih.1, (ghost_edge he).2⟩
  intro z hz
  obtain ⟨h1, h2⟩ := hstep z z hz
  rw [h1] at h2
  exact absurd h2 (by decide)

/-- Witness for C1: the chain graph a→b is sorted successfully. -/
theorem c1_witness :
    ∃ order, dependenciesSort [("a", ["b"]), ("b", [])] = Except.ok order ∧
      order.Nodup ∧
      (∀ n, n ∈ order ↔ n ∈ dkeys [("a", ["b"]), ("b", [])]) ∧
      (∀ x y, Edge [("a", ["b"]), ("b", [])] x y →
        order.indexOf y < order.indexOf x) :=
  c1_dependencies_sort_topological_order [("a", ["b"]), ("b", [])]
    (by decide) (by decide) chain2_acyclic

/-- Witness for C2: the spec's two-node cycle raises the cyclical error. -/
theorem c2_witness :
    dependenciesSort [("a", ["b"]), ("b", ["a"])] =
      Except.error (DependencyError.cyclical [("a", ["b"]), ("b", ["a"])]) :=
  c2_dependencies_sort_cycle_error [("a", ["b"]), ("b", ["a"])]
    (by decide) (by decide)
    ⟨"a", Relation.TransGen.head
      (show Edge [("a", ["b"]), ("b", ["a"])] "a" "b" from ⟨["b"], by decide, by decide⟩)
      (Relation.TransGen.single
        (show Edge [("a", ["b"]), ("b", ["a"])] "b" "a" from
          ⟨["a"], by decide, by decide⟩))⟩

/-- Witness for C3: the spec's dangling-reference graph raises the
non-cyclical dependency error. -/
theorem c3_witness :
    dependenciesSort [("a", ["ghost"])] =
      Except.error (DependencyError.incorrect [("a", ["ghost"])]) ∧
      ∀ g, DependencyError.incorrect [("a", ["ghost"])] ≠ DependencyError.cyclical g :=
  c3_dependencies_sort_dangling_error [("a", ["ghost"])]
    (by decide) ghost_acyclic ⟨"ghost", by decide, by decide⟩

/-! ## Embedding of `Utils.render_templates`

The Jinja2 and sqlglot collaborators are third-party libraries; they are
modelled from the spec (§4.4, §9) as indicated on each definition. -/

theorem semi_not_mem_removeSemis (l : List Char) : ';' ∉ removeSemis l := by
  induction l with
  | nil => simp [removeSemis]
  | cons c rest ih =>
    by_cases hc : c = ';'
    · simpa [removeSemis, hc] using ih
    · simp only [removeSemis, if_neg hc, List.mem_cons]
      rintro (h | h)
      · exact hc h.symm
      · exact ih h

theorem mem_of_mem_removeDD (c : Char) (l : List Char) (h : c ∈ removeDD l) :
    c ∈ l := by
  induction l using removeDD.induct with
  | case1 => cases h
  | case2 d => exact h
  | case3 c₁ c₂ rest hcond ih =>
    simp only [removeDD, if_pos hcond] at h
    exact List.mem_cons_of_mem _ (List.mem_cons_of_mem _ (ih h))
  | case4 c₁ c₂ rest hcond ih =>
    simp only [removeDD, if_neg hcond] at h
    rcases List.mem_cons.mp h with h | h
    · exact h ▸ List.mem_cons_self _ _
    · exact List.mem_cons_of_mem _ (ih h)

theorem containsSub_singleton (c : Char) (l : List Char) :
    containsSub [c] l = true ↔ c ∈ l := by
  induction l with
  | nil => simp [containsSub]
  | cons d rest ih =>
    simp only [containsSub, Bool.or_eq_true, ih, List.isPrefixOf, List.mem_cons]
    constructor
    · rintro (h | h)
      · simp only [Bool.and_eq_true, beq_iff_eq] at h
        exact Or.inl h.1
      · exact Or.inr h
    · rintro (h | h)
      · left
        simp [h, List.isPrefixOf]
      · exact Or.inr h

theorem containsSub_iff_sub (pat l : List Char) :
    containsSub pat l = true ↔ pat <:+: l := by
  induction l with
  | nil =>
    simp [containsSub, List.isEmpty_iff, List.infix_nil]
  | cons c rest ih =>
    simp only [containsSub, Bool.or_eq_true, ih, List.isPrefixOf_iff_prefix]
    exact (List.infix_cons_iff).symm

theorem containsSub_false_of_sub {pat l₁ l₂ : List Char}
    (hsub : l₂ <:+: l₁) (h : containsSub pat l₁ = false) :
    containsSub pat l₂ = false := by
  rw [Bool.eq_false_iff]
  intro hc
  have h1 := (containsSub_iff_sub pat l₂).mp hc
  have h2 : pat <:+: l₁ := h1.trans hsub
  rw [← containsSub_iff_sub] at h2
  rw [h] at h2
  cases h2

theorem removeDD_head {c : Char} (rest : List Char) (hc : c ≠ '-') :
    removeDD (c :: rest) = c :: removeDD rest := by
  cases rest with
  | nil => rfl
  | cons c₂ r =>
    simp only [removeDD]
    rw [if_neg (fun h => hc h.1)]

theorem containsSub_dd_removeDD (l : List Char) :
    containsSub ['-', '-'] (removeDD l) = false := by
  induction l using removeDD.induct with
  | case1 => rfl
  | case2 c =>
    simp [removeDD, containsSub, List.isPrefixOf]
  | case3 c₁ c₂ rest hcond ih =>
    simp only [removeDD, if_pos hcond]
    exact ih
  | case4 c₁ c₂ rest hcond ih =>
    simp only [removeDD, if_neg hcond, containsSub, Bool.or_eq_false_iff]
    refine ⟨?_, ih⟩
    by_cases hc₁ : c₁ = '-'
    · subst hc₁
      have hc₂ : c₂ ≠ '-' := fun h => hcond ⟨rfl, h⟩
      rw [removeDD_head rest hc₂]
      simp only [List.isPrefixOf, Bool.and_eq_false_iff]
      right
      left
      simp only [beq_eq_false_iff_ne, ne_eq]
      exact fun h => hc₂ h.symm
    · simp only [List.isPrefixOf, Bool.and_eq_false_iff]
      left
      simp only [beq_eq_false_iff_ne, ne_eq]
      exact fun h => hc₁ h.symm

theorem collapseNL_head (rest : List Char) :
    ∀ c, ∃ t, collapseNL (c :: rest) = c :: t := by
  induction rest with
  | nil => exact fun c => ⟨[], rfl⟩
  | cons c₂ r ih =>
    intro c
    by_cases h : c = '\n' ∧ c₂ = '\n'
    · obtain ⟨t, ht⟩ := ih c₂
      refine ⟨t, ?_⟩
      simp only [collapseNL, if_pos h, ht]
      rw [h.1, h.2]
    · exact ⟨collapseNL (c₂ :: r), by simp only [collapseNL, if_neg h]⟩

theorem containsSub_nn_collapseNL (l : List Char) :
    containsSub ['\n', '\n'] (collapseNL l) = false := by
  induction l using collapseNL.induct with
  | case1 => rfl
  | case2 c =>
    simp [collapseNL, containsSub, List.isPrefixOf]
  | case3 c₁ c₂ rest hcond ih =>
    simp only [collapseNL, if_pos hcond]
    exact ih
  | case4 c₁ c₂ rest hcond ih =>
    simp only [collapseNL, if_neg hcond, containsSub, Bool.or_eq_false_iff]
    refine ⟨?_, ih⟩
    by_cases hc₁ : c₁ = '\n'
    · subst hc₁
      have hc₂ : c₂ ≠ '\n' := fun h => hcond ⟨rfl, h⟩
      obtain ⟨t, ht⟩ := collapseNL_head rest c₂
      rw [ht]
      simp only [List.isPrefixOf, Bool.and_eq_false_iff]
      right
      left
      simp only [beq_eq_false_iff_ne, ne_eq]
      exact fun h => hc₂ h.symm
    · simp only [List.isPrefixOf, Bool.and_eq_false_iff]
      left
      simp only [beq_eq_false_iff_ne, ne_eq]
      exact fun h => hc₁ h.symm

theorem dropTrailing_pre (p : Char → Bool) (l : List Char) :
    dropTrailing p l <+: l := by
  induction l with
  | nil => simp [dropTrailing]
  | cons c rest ih =>
    show (if dropTrailing p rest = [] ∧ p c then [] else c :: dropTrailing p rest) <+: c :: rest
    by_cases h : dropTrailing p rest = [] ∧ p c
    · rw [if_pos h]
      exact List.nil_prefix
    · rw [if_neg h]
      exact List.cons_prefix_cons.mpr ⟨rfl, ih⟩

theorem dropTrailing_getLast (p : Char → Bool) (l : List Char) :
    ∀ c, (dropTrailing p l).getLast? = some c → p c = false := by
  induction l with
  | nil =>
    intro c h
    simp [dropTrailing] at h
  | cons d rest ih =>
    intro c h
    replace h : (if dropTrailing p rest = [] ∧ p d then []
        else d :: dropTrailing p rest).getLast? = some c := h
    by_cases hc : dropTrailing p rest = [] ∧ p d
    · rw [if_pos hc] at h
      cases h
    · rw [if_neg hc] at h
      cases he : dropTrailing p rest with
      | nil =>
        rw [he] at h
        simp only [List.getLast?_singleton, Option.some.injEq] at h
        subst h
        rw [he] at hc
        by_cases hp : p d = true
        · exact absurd ⟨rfl, hp⟩ hc
        · simpa using hp
      | cons e tail =>
        rw [he] at h
        rw [List.getLast?_cons_cons] at h
        exact ih c (he ▸ h)

theorem stripChars_sub (p : Char → Bool) (l : List Char) :
    stripChars p l <:+: l := by
  unfold stripChars
  exact (dropTrailing_pre p (l.dropWhile p)).isInfix.trans
    (List.dropWhile_suffix p).isInfix

theorem normalizeSql_no_nn (s : String) :
    containsSub ['\n', '\n'] (normalizeSql s).toList = false := by
  have h0 := containsSub_nn_collapseNL s.toList
  have hinf : stripChars (fun c => c = ';')
      (stripChars isPySpace (collapseNL s.toList)) <:+: collapseNL s.toList :=
    (stripChars_sub _ _).trans (stripChars_sub _ _)
  exact containsSub_false_of_sub hinf h0

theorem normalizeSql_no_trailing_semi (s : String) (c : Char)
    (h : (normalizeSql s).toList.getLast? = some c) : c ≠ ';' := by
  have hlast := dropTrailing_getLast (fun c => c = ';')
    ((stripChars isPySpace (collapseNL s.toList)).dropWhile (fun c => c = ';')) c h
  simpa using hlast

/-! ### The rendering claims -/

/-- Sanitization maps values only: the dict comprehension of
`render_templates` leaves the definition keys unchanged. -/
theorem sanitizeDefinition_keys (d : List (String × Value)) :
    (sanitizeDefinition d).map Prod.fst = d.map Prod.fst := by
  induction d with
  | nil => rfl
  | cons p rest ih => simp [sanitizeDefinition]

/-- C4: full-mode `render_templates` fails with the missing-variables template
error naming the missing names exactly when some free variable other than
`iac_action` is not a key of the definition; when every such free variable is
a key, no missing-variable error is raised: rendering succeeds unless the
definition itself carries an `iac_action` key, in which case (and only then)
the duplicate-keyword `TypeError` escapes instead. -/
theorem c4_render_templates_missing_vars (resourcesPath : String)
    (template : Template) (definition : List (String × Value))
    (iacAction name : Option String) (hfull : definition ≠ []) :
    ((∃ v ∈ findUndeclaredVariables template,
        v ∉ definition.map Prod.fst ∧ v ≠ "iac_action") ↔
      (∃ missing, renderTemplates resourcesPath template definition iacAction name =
          Except.error (RenderError.missingVars name resourcesPath missing) ∧
        missing ≠ [] ∧
        (∀ v, v ∈ missing ↔ (v ∈ findUndeclaredVariables template ∧
          v ∉ definition.map Prod.fst ∧ v ≠ "iac_action")))) ∧
    ((∀ v ∈ findUndeclaredVariables template, v ≠ "iac_action" →
        v ∈ definition.map Prod.fst) →
      ("iac_action" ∈ definition.map Prod.fst ∧
        renderTemplates resourcesPath template definition iacAction name =
          Except.error (RenderError.dupKeyword "iac_action")) ∨
      ("iac_action" ∉ definition.map Prod.fst ∧
        ∃ sql, renderTemplates resourcesPath template definition iacAction name =
          Except.ok sql)) := by
  have hmemM : ∀ v, v ∈ (findUndeclaredVariables template).filter
      (fun v => decide (v ∉ definition.map Prod.fst) && decide (v ≠ "iac_action")) ↔
      (v ∈ findUndeclaredVariables template ∧
        v ∉ definition.map Prod.fst ∧ v ≠ "iac_action") := by
    intro v
    rw [List.mem_filter]
    simp
  constructor
  · constructor
    · rintro ⟨v, hv, hv1, hv2⟩
      have hvM := (hmemM v).mpr ⟨hv, hv1, hv2⟩
      have hMne : (findUndeclaredVariables template).filter
          (fun v => decide (v ∉ definition.map Prod.fst) && decide (v ≠ "iac_action")) ≠ [] :=
        List.ne_nil_of_mem hvM
      refine ⟨_, ?_, hMne, hmemM⟩
      simp only [renderTemplates, if_neg hfull]
      rw [if_pos hMne]
    · rintro ⟨missing, _, hne, hchar⟩
      obtain ⟨v, hv⟩ := List.exists_mem_of_ne_nil missing hne
      obtain ⟨h1, h2, h3⟩ := (hchar v).mp hv
      exact ⟨v, h1, h2, h3⟩
  · intro hall
    have hM : (findUndeclaredVariables template).filter
        (fun v => decide (v ∉ definition.map Prod.fst) && decide (v ≠ "iac_action")) = [] := by
      rw [List.filter_eq_nil_iff]
      intro v hv
      simp only [Bool.and_eq_true, decide_eq_true_eq]
      intro hcon
      exact hcon.1 (hall v hv hcon.2)
    by_cases hkey : "iac_action" ∈ definition.map Prod.fst
    · left
      refine ⟨hkey, ?_⟩
      have hkey' : "iac_action" ∈ (sanitizeDefinition definition).map Prod.fst := by
        rw [sanitizeDefinition_keys]; exact hkey
      simp only [renderTemplates, if_neg hfull]
      rw [if_neg (fun h => h hM), if_pos hkey']
    · right
      refine ⟨hkey, ?_⟩
      have hkey' : "iac_action" ∉ (sanitizeDefinition definition).map Prod.fst := by
        rw [sanitizeDefinition_keys]; exact hkey
      refine ⟨parseOnePretty (normalizeSql (renderT template (fun v =>
        if v = "iac_action" then (match iacAction with | some s => s | none => "None")
        else match (sanitizeDefinition definition).find? (fun p => p.1 = v) with
          | some p => valueToStr p.2
          | none => ""))), ?_⟩
      simp only [renderTemplates, if_neg hfull]
      rw [if_neg (fun h => h hM), if_neg hkey']

/-- Witness for C4 at a one-variable template and a definition that misses it. -/
theorem c4_witness :
    ((∃ v ∈ findUndeclaredVariables [Chunk.var "missing_one"],
        v ∉ ([("name", Value.str "x")].map Prod.fst) ∧ v ≠ "iac_action") ↔
      (∃ missing, renderTemplates "resources.toml" [Chunk.var "missing_one"]
          [("name", Value.str "x")] none (some "r") =
          Except.error (RenderError.missingVars (some "r") "resources.toml" missing) ∧
        missing ≠ [] ∧
        (∀ v, v ∈ missing ↔ (v ∈ findUndeclaredVariables [Chunk.var "missing_one"] ∧
          v ∉ ([("name", Value.str "x")].map Prod.fst) ∧ v ≠ "iac_action")))) ∧
    ((∀ v ∈ findUndeclaredVariables [Chunk.var "missing_one"], v ≠ "iac_action" →
        v ∈ ([("name", Value.str "x")].map Prod.fst)) →
      ("iac_action" ∈ ([("name", Value.str "x")].map Prod.fst) ∧
        renderTemplates "resources.toml" [Chunk.var "missing_one"]
          [("name", Value.str "x")] none (some "r") =
          Except.error (RenderError.dupKeyword "iac_action")) ∨
      ("iac_action" ∉ ([("name", Value.str "x")].map Prod.fst) ∧
        ∃ sql, renderTemplates "resources.toml" [Chunk.var "missing_one"]
          [("name", Value.str "x")] none (some "r") = Except.ok sql)) :=
  c4_render_templates_missing_vars "resources.toml" [Chunk.var "missing_one"]
    [("name", Value.str "x")] none (some "r") (by decide)

/-- C5: the sanitization step removes every ";" and every "--" from
string-valued definition entries and leaves non-string values unchanged; in
particular the spec's injection scenario renders to
`CREATE ROLE x drop all` with no injection markers. -/
theorem c5_sanitization_removes_injection (s : String) (n : Int) (b : Bool)
    (entries : List (String × List String)) :
    (∃ s', sanitizeValue (Value.str s) = Value.str s' ∧
      containsSub [';'] s'.toList = false ∧
      containsSub ['-', '-'] s'.toList = false) ∧
    sanitizeValue (Value.int n) = Value.int n ∧
    sanitizeValue (Value.boolean b) = Value.boolean b ∧
    sanitizeValue (Value.vmap entries) = Value.vmap entries ∧
    renderTemplates "resources.toml" [Chunk.lit "CREATE ROLE ", Chunk.var "name"]
        [("name", Value.str "x; drop all --")] none (some "x") =
      Except.ok "CREATE ROLE x drop all" ∧
    containsSub "x drop all".toList "CREATE ROLE x drop all".toList = true ∧
    containsSub [';'] "CREATE ROLE x drop all".toList = false ∧
    containsSub ['-', '-'] "CREATE ROLE x drop all".toList = false := by
  refine ⟨⟨String.mk (removeDD (removeSemis s.toList)), rfl, ?_, ?_⟩,
    rfl, rfl, rfl, rfl, by decide, by decide, by decide⟩
  · rw [Bool.eq_false_iff]
    intro hc
    have hmem : ';' ∈ removeDD (removeSemis s.toList) :=
      (containsSub_singleton ';' _).mp hc
    exact semi_not_mem_removeSemis s.toList (mem_of_mem_removeDD _ _ hmem)
  · exact containsSub_dd_removeDD (removeSemis s.toList)

/-- C6 is refuted as stated: the code strips every trailing ";" (Python
`strip(";")`), not exactly one. On `SELECT 1;;` the code yields `SELECT 1`
while stripping exactly one terminator would yield `SELECT 1;`. -/
theorem c6_counterexample :
    renderTemplates "resources.toml" [Chunk.lit "SELECT 1;;"] [("x", Value.int 0)]
        none none = Except.ok "SELECT 1" ∧
    normalizeSql "SELECT 1;;" = "SELECT 1" ∧
    specNormalizeSqlOneSemi "SELECT 1;;" = "SELECT 1;" ∧
    normalizeSql "SELECT 1;;" ≠ specNormalizeSqlOneSemi "SELECT 1;;" :=
  ⟨rfl, rfl, rfl, by decide⟩

/-- C6 (amended): the normalization collapses newline runs to single newlines,
trims surrounding whitespace and strips all (possibly more than one) leading
and trailing ";" characters, so every successfully rendered full-mode SQL has
no blank-line run and no trailing statement terminator. -/
theorem c6_normalization (resourcesPath : String) (template : Template)
    (definition : List (String × Value)) (iacAction name : Option String)
    (sql : String) (hfull : definition ≠ [])
    (h : renderTemplates resourcesPath template definition iacAction name =
      Except.ok sql) :
    containsSub ['\n', '\n'] sql.toList = false ∧
    (∀ c, sql.toList.getLast? = some c → c ≠ ';') := by
  simp only [renderTemplates, if_neg hfull] at h
  by_cases hM : (findUndeclaredVariables template).filter
      (fun v => decide (v ∉ definition.map Prod.fst) && decide (v ≠ "iac_action")) = []
  · rw [if_neg (fun hc => hc hM)] at h
    by_cases hkey : "iac_action" ∈ (sanitizeDefinition definition).map Prod.fst
    · rw [if_pos hkey] at h
      cases h
    · rw [if_neg hkey] at h
      injection h with h2
      subst h2
      simp only [parseOnePretty]
      exact ⟨normalizeSql_no_nn _, fun c hc => normalizeSql_no_trailing_semi _ c hc⟩
  · rw [if_pos hM] at h
    cases h

/-- Witness for C6 (amended) at a template whose raw rendering has a blank-line
run and trailing terminators. -/
theorem c6_witness :
    containsSub ['\n', '\n'] ("A;;\nB" : String).toList = false ∧
    (∀ c, ("A;;\nB" : String).toList.getLast? = some c → c ≠ ';') :=
  c6_normalization "resources.toml" [Chunk.lit "A;;\n\nB"]
    [("x", Value.int 0)] none none "A;;\nB" (by decide) rfl

/-! ## Embedding of `Utils.execute_rendered_sql_template` and `main.run` -/

/-- C8: `execute_rendered_sql_template` with any operation other than "Apply"
(in particular "Plan") executes nothing: the connection is returned unchanged
and no statement is appended to the executed trace. -/
theorem c8_plan_executes_nothing (execFails : String → Bool) (conn : Conn)
    (sql operation : String) (dependsOn : Option Value) (waitTime : Option Int)
    (hop : operation ≠ "Apply") :
    executeRenderedSqlTemplate execFails conn sql operation dependsOn waitTime =
      Except.ok conn := by
  unfold executeRenderedSqlTemplate
  rw [if_neg hop]

/-- Witness for C8 at `operation = "Plan"`. -/
theorem c8_witness :
    executeRenderedSqlTemplate (fun _ => true) ⟨[], false⟩ "DROP ROLE r1" "Plan"
      none none = Except.ok ⟨[], false⟩ :=
  c8_plan_executes_nothing (fun _ => true) ⟨[], false⟩ "DROP ROLE r1" "Plan"
    none none (by decide)

/-- C7 (code bug): in destroy mode the drop template is rendered against the
drift-resolved definition even when drift reports `no action`, but the
rendered SQL is never passed to execution/preview: the call in `main.run`
passes keyword arguments `connection` and `dependencies` that
`execute_rendered_sql_template` does not accept (its parameters are `conn`
and `depends_on`, the names the repository's own tests use), so Python raises
`TypeError` before the method body runs; the per-resource handler wraps it and
the run aborts with nothing executed or previewed. -/
theorem c7_destroy_renders_drop_but_never_executes :
    run exampleCfg [("role::r1", [])] exampleDefFile
      (some (fun db => if db = "snowflake" then some exampleDbRes else none))
      exampleDrift =
    ⟨Except.error (RunError.wrapped "r1" (some "resources.toml")
        (ResourceErr.typeErr "execute_rendered_sql_template" "connection")),
      ⟨[], true⟩, ["SHOW ROLES"], ["DROP ROLE r1"]⟩ := by decide

/-- C9 is refuted as stated: a missing definition file is an error raised
while the orchestrator is processing a resource of the ExecutionOrder, yet it
propagates as a bare `FileError` — not wrapped, and the connection is left
open. -/
theorem c9_counterexample :
    (run ⟨"ws", "db", some "/defs", some "resources.toml", "Plan", "default"⟩
        [("role::r1", [])] (fun _ => none) (some (fun _ => some (fun _ => none)))
        exampleDrift).outcome =
      Except.error (RunError.fileErr "ws/defs/role.toml" (some "role")) ∧
    (run ⟨"ws", "db", some "/defs", some "resources.toml", "Plan", "default"⟩
        [("role::r1", [])] (fun _ => none) (some (fun _ => some (fun _ => none)))
        exampleDrift).conn.closed = false := by
  constructor
  · decide
  · decide

/-- C9 (amended): any error raised inside the per-resource guarded block
terminates the run immediately — the loop's result does not depend on the
remaining resources — with the connection closed and the error re-raised
wrapped as a resource-attributed `TemplateFileError`; errors raised while
opening the definition file (before the guarded block) abort the run but
propagate unwrapped with the connection still open. -/
theorem c9_inner_error_closes_and_aborts (cfg : InputConfig)
    (defFile : String → Option (List (String × List (List (String × Value)))))
    (dbRes : String → Option ResourceSpec)
    (driftFn : List (String × Value) → String → String → DriftResult)
    (i : String) (rest : List String) (conn : Conn) (st act s a : List String)
    (n : String) (p : Option String) (e : ResourceErr)
    (h : processResource cfg defFile dbRes driftFn i =
      (s, a, some (RunError.wrapped n p e))) :
    runLoop cfg defFile dbRes driftFn (i :: rest) conn st act =
      ⟨Except.error (RunError.wrapped n p e), { conn with closed := true },
        st ++ s, act ++ a⟩ := by
  simp only [runLoop, h]

/-- Witness for C9 (amended): the destroy scenario's inner `TypeError` aborts
before a second resource is processed and closes the connection. -/
theorem c9_witness :
    runLoop exampleCfg exampleDefFile exampleDbRes exampleDrift
      ["role::r1", "role::r2"] ⟨[], false⟩ [] [] =
      ⟨Except.error (RunError.wrapped "r1" (some "resources.toml")
          (ResourceErr.typeErr "execute_rendered_sql_template" "connection")),
        ⟨[], true⟩, [] ++ ["SHOW ROLES"], [] ++ ["DROP ROLE r1"]⟩ :=
  c9_inner_error_closes_and_aborts exampleCfg exampleDefFile exampleDbRes
    exampleDrift "role::r1" ["role::r2"] ⟨[], false⟩ [] []
    ["SHOW ROLES"] ["DROP ROLE r1"] "r1" (some "resources.toml")
    (ResourceErr.typeErr "execute_rendered_sql_template" "connection") (by decide)

theorem processRsc_fallthrough (cfg : InputConfig) (spec : ResourceSpec)
    (driftFn : List (String × Value) → String → String → DriftResult)
    (rn : String) (rsc : List (String × Value))
    (h1 : pyLower cfg.runMode ≠ "create-or-update")
    (h2 : pyLower cfg.runMode ≠ "destroy") :
    (processRsc cfg spec driftFn rn rsc).actionRenders = [] := by
  unfold processRsc
  cases hf : rsc.find? (fun p => p.1 = "name") with
  | none => rfl
  | some p =>
    dsimp only
    by_cases hn : p.2 = Value.str rn
    · rw [if_pos hn]
      cases hr : renderTemplates ((cfg.resourcesPath).getD "None") spec.stateQuery rsc
          none (some rn) with
      | error e => rfl
      | ok stateSql =>
        simp only [if_neg h1, if_neg h2]
    · rw [if_neg hn]

theorem processRscs_fallthrough (cfg : InputConfig) (spec : ResourceSpec)
    (driftFn : List (String × Value) → String → String → DriftResult)
    (rn : String) (l : List (List (String × Value)))
    (h1 : pyLower cfg.runMode ≠ "create-or-update")
    (h2 : pyLower cfg.runMode ≠ "destroy") :
    (processRscs cfg spec driftFn rn l).actionRenders = [] := by
  induction l with
  | nil => rfl
  | cons rsc rest ih =>
    have ha := processRsc_fallthrough cfg spec driftFn rn rsc h1 h2
    unfold processRscs
    cases he : (processRsc cfg spec driftFn rn rsc).err with
    | some e =>
      simp only [he]
      exact ha
    | none =>
      simp only [he]
      rw [ha, ih]
      rfl

theorem processResource_fallthrough (cfg : InputConfig)
    (defFile : String → Option (List (String × List (List (String × Value)))))
    (dbRes : String → Option ResourceSpec)
    (driftFn : List (String × Value) → String → String → DriftResult)
    (i : String)
    (h1 : pyLower cfg.runMode ≠ "create-or-update")
    (h2 : pyLower cfg.runMode ≠ "destroy") :
    (processResource cfg defFile dbRes driftFn i).2.1 = [] := by
  unfold processResource
  cases hs : splitNode i with
  | none => rfl
  | some pr =>
    obtain ⟨rtype, rname⟩ := pr
    dsimp only
    cases hd : defFile rtype with
    | none => rfl
    | some content =>
      dsimp only
      cases hc : content.find? (fun p => p.1 = rtype) with
      | none => rfl
      | some entry =>
        dsimp only
        cases hb : dbRes rtype with
        | none => rfl
        | some spec =>
          dsimp only
          have ha := processRscs_fallthrough cfg spec driftFn rname entry.2 h1 h2
          cases he : (processRscs cfg spec driftFn rname entry.2).err with
          | some e =>
            simp only [he]
            exact ha
          | none =>
            simp only [he]
            exact ha

theorem runLoop_fallthrough (cfg : InputConfig)
    (defFile : String → Option (List (String × List (List (String × Value)))))
    (dbRes : String → Option ResourceSpec)
    (driftFn : List (String × Value) → String → String → DriftResult)
    (h1 : pyLower cfg.runMode ≠ "create-or-update")
    (h2 : pyLower cfg.runMode ≠ "destroy") :
    ∀ (resources : List String) (conn : Conn) (st act : List String),
      (runLoop cfg defFile dbRes driftFn resources conn st act).actionRenders = act ∧
      (runLoop cfg defFile dbRes driftFn resources conn st act).conn.executed =
        conn.executed ∧
      ((runLoop cfg defFile dbRes driftFn resources conn st act).outcome =
          Except.ok () →
        (runLoop cfg defFile dbRes driftFn resources conn st act).conn.closed = true) := by
  intro resources
  induction resources with
  | nil =>
    intro conn st act
    exact ⟨rfl, rfl, fun _ => rfl⟩
  | cons i rest ih =>
    intro conn st act
    rcases hp : processResource cfg defFile dbRes driftFn i with ⟨s, a, eo⟩
    have ha : a = [] := by
      have := processResource_fallthrough cfg defFile dbRes driftFn i h1 h2
      rw [hp] at this
      exact this
    subst ha
    cases eo with
    | none =>
      have hred : runLoop cfg defFile dbRes driftFn (i :: rest) conn st act =
          runLoop cfg defFile dbRes driftFn rest conn (st ++ s) (act ++ []) := by
        simp only [runLoop, hp]
      rw [hred]
      obtain ⟨ih1, ih2, ih3⟩ := ih conn (st ++ s) (act ++ [])
      refine ⟨?_, ih2, ih3⟩
      rw [ih1, List.append_nil]
    | some e =>
      cases e with
      | wrapped n p er =>
        have hred : runLoop cfg defFile dbRes driftFn (i :: rest) conn st act =
            ⟨Except.error (RunError.wrapped n p er), { conn with closed := true },
              st ++ s, act ++ []⟩ := by
          simp only [runLoop, hp]
        rw [hred]
        refine ⟨List.append_nil act, rfl, fun h => ?_⟩
        cases h
      | fileErr p rt =>
        have hred : runLoop cfg defFile dbRes driftFn (i :: rest) conn st act =
            ⟨Except.error (RunError.fileErr p rt), conn, st ++ s, act ++ []⟩ := by
          simp only [runLoop, hp]
        rw [hred]
        refine ⟨List.append_nil act, rfl, fun h => ?_⟩
        cases h
      | valueErr node =>
        have hred : runLoop cfg defFile dbRes driftFn (i :: rest) conn st act =
            ⟨Except.error (RunError.valueErr node), conn, st ++ s, act ++ []⟩ := by
          simp only [runLoop, hp]
        rw [hred]
        refine ⟨List.append_nil act, rfl, fun h => ?_⟩
        cases h
      | keyErr k =>
        have hred : runLoop cfg defFile dbRes driftFn (i :: rest) conn st act =
            ⟨Except.error (RunError.keyErr k), conn, st ++ s, act ++ []⟩ := by
          simp only [runLoop, hp]
        rw [hred]
        refine ⟨List.append_nil act, rfl, fun h => ?_⟩
        cases h
      | depErr d =>
        have hred : runLoop cfg defFile dbRes driftFn (i :: rest) conn st act =
            ⟨Except.error (RunError.depErr d), conn, st ++ s, act ++ []⟩ := by
          simp only [runLoop, hp]
        rw [hred]
        refine ⟨List.append_nil act, rfl, fun h => ?_⟩
        cases h

/-- C10: with a run mode that is (case-insensitively) neither
`create-or-update` nor `destroy` — in particular the default value `default`
that `parse_env` supplies when the run-mode variable is unset — the
orchestrator renders no action template and executes no SQL for any resource:
the dispatch falls through both branches, and a normally completed run has
only evaluated state queries and drift, closing the connection. -/
theorem c10_fallthrough_mode_no_actions (cfg : InputConfig) (dMap : DepMap)
    (defFile : String → Option (List (String × List (List (String × Value)))))
    (resourcesConfig : Option (String → Option (String → Option ResourceSpec)))
    (driftFn : List (String × Value) → String → String → DriftResult)
    (h1 : pyLower cfg.runMode ≠ "create-or-update")
    (h2 : pyLower cfg.runMode ≠ "destroy") :
    (run cfg dMap defFile resourcesConfig driftFn).actionRenders = [] ∧
    (run cfg dMap defFile resourcesConfig driftFn).conn.executed = [] ∧
    ((run cfg dMap defFile resourcesConfig driftFn).outcome = Except.ok () →
      (run cfg dMap defFile resourcesConfig driftFn).conn.closed = true) ∧
    (∀ env c, envGet env "INPUT_RUN-MODE" = none →
      parseEnv env = Except.ok c → c.runMode = "default") ∧
    (pyLower "default" ≠ "create-or-update" ∧ pyLower "default" ≠ "destroy") := by
  have hmain : (run cfg dMap defFile resourcesConfig driftFn).actionRenders = [] ∧
      (run cfg dMap defFile resourcesConfig driftFn).conn.executed = [] ∧
      ((run cfg dMap defFile resourcesConfig driftFn).outcome = Except.ok () →
        (run cfg dMap defFile resourcesConfig driftFn).conn.closed = true) := by
    unfold run
    cases hd : dependenciesSort dMap with
    | error e => exact ⟨rfl, rfl, fun h => by cases h⟩
    | ok sortedMap =>
      dsimp only
      cases resourcesConfig with
      | none => exact ⟨rfl, rfl, fun h => by cases h⟩
      | some cfgF =>
        dsimp only
        cases hb : cfgF cfg.databaseSystem with
        | none => exact ⟨rfl, rfl, fun h => by cases h⟩
        | some dbRes =>
          exact runLoop_fallthrough cfg defFile dbRes driftFn h1 h2 sortedMap
            ⟨[], false⟩ [] []
  refine ⟨hmain.1, hmain.2.1, hmain.2.2, ?_, by decide⟩
  intro env c he hp
  cases hws : envGet env "GITHUB_WORKSPACE" with
  | none =>
    simp only [parseEnv, hws] at hp
    exact Except.noConfusion hp
  | some ws =>
    cases hdb : envGet env "INPUT_DATABASE-SYSTEM" with
    | none =>
      simp only [parseEnv, hws, hdb] at hp
      exact Except.noConfusion hp
    | some db =>
      simp only [parseEnv, hws, hdb] at hp
      injection hp with hc
      rw [← hc]
      simp [he]

/-- Witness for C10: a concrete run with the default run mode renders and
executes nothing. -/
theorem c10_witness :
    (run ⟨"ws", "snowflake", some "/definitions", some "resources.toml", "Plan",
        "default"⟩ [("role::r1", [])] exampleDefFile
      (some (fun db => if db = "snowflake" then some exampleDbRes else none))
      exampleDrift).actionRenders = [] ∧
    (run ⟨"ws", "snowflake", some "/definitions", some "resources.toml", "Plan",
        "default"⟩ [("role::r1", [])] exampleDefFile
      (some (fun db => if db = "snowflake" then some exampleDbRes else none))
      exampleDrift).conn.executed = [] ∧
    ((run ⟨"ws", "snowflake", some "/definitions", some "resources.toml", "Plan",
        "default"⟩ [("role::r1", [])] exampleDefFile
      (some (fun db => if db = "snowflake" then some exampleDbRes else none))
      exampleDrift).outcome = Except.ok () →
      (run ⟨"ws", "snowflake", some "/definitions", some "resources.toml", "Plan",
        "default"⟩ [("role::r1", [])] exampleDefFile
      (some (fun db => if db = "snowflake" then some exampleDbRes else none))
      exampleDrift).conn.closed = true) ∧
    (∀ env c, envGet env "INPUT_RUN-MODE" = none →
      parseEnv env = Except.ok c → c.runMode = "default") ∧
    (pyLower "default" ≠ "create-or-update" ∧ pyLower "default" ≠ "destroy") :=
  c10_fallthrough_mode_no_actions
    ⟨"ws", "snowflake", some "/definitions", some "resources.toml", "Plan", "default"⟩
    [("role::r1", [])] exampleDefFile
    (some (fun db => if db = "snowflake" then some exampleDbRes else none))
    exampleDrift (by decide) (by decide)

end Sqliac
